import Mathlib

/-!
Shallow embedding of the core of the openapi-enforcer repository:
the recursive validator-driven normalizer (`super.js`, given here as an
unnamed source file) and parts of the Schema enforcer (`src/enforcers/Schema.js`).

JavaScript values are modelled as a small inductive type `Val`: primitives
carry their payload (numbers are modelled as `Int`), while objects and
arrays are references into explicit heaps, so that object identity,
shared references and cyclic definitions are representable.  The raw
definition heap is read-only; the result heap grows while the normalizer
materializes its output.  Machine-level float behaviour is out of scope of
the claims treated here.
-/

set_option autoImplicit false

/-- JavaScript primitive values. Numbers are modelled as integers. -/
inductive Prim where
  | pnull
  | pundef
  | pbool (b : Bool)
  | pnum (n : Int)
  | pstr (s : String)
deriving DecidableEq, Repr

/-- A JavaScript value: a primitive, a reference into the raw-definition
heap (`dref`) or a reference into the result heap (`rref`).  Reference
equality of two objects is equality of the reference constructor and id. -/
inductive Val where
  | prim (p : Prim)
  | dref (id : Nat)
  | rref (id : Nat)
deriving DecidableEq, Repr

/-- A heap node: an array of values or a plain object (ordered fields). -/
inductive Node where
  | arrN (elems : List Val)
  | objN (fields : List (String × Val))
deriving DecidableEq, Repr

/-- The raw definition: a heap of nodes; cycles are ids that reach themselves. -/
abbrev DefHeap : Type := List Node

/-- Key of a walk step: an object property name or an array index. -/
inductive Key where
  | kstr (s : String)
  | kidx (i : Nat)
deriving DecidableEq, Repr

/-- A path in the exception tree: the chain of keys from the root. -/
abbrev EPath : Type := List Key

/-- JavaScript truthiness of a value. Objects are always truthy. -/
def jsTruthy : Val → Bool
  | .prim .pnull => false
  | .prim .pundef => false
  | .prim (.pbool b) => b
  | .prim (.pnum n) => decide (n ≠ 0)
  | .prim (.pstr s) => decide (s ≠ "")
  | .dref _ => true
  | .rref _ => true

/-- SameValueZero, the algorithm used by `Array.prototype.includes`:
primitives compare by value, objects by reference identity.  (`NaN` does
not arise in the integer model of numbers.) -/
def svzEq (a b : Val) : Bool := decide (a = b)

/-- `Array.prototype.includes` over the model. -/
def listIncludes (xs : List Val) (v : Val) : Bool := xs.any (fun x => svzEq x v)

/-- Association-list lookup used for JS object member reads. -/
def alGet {α : Type} (l : List (String × α)) (k : String) : Option α :=
  match l.find? (fun p => p.1 = k) with
  | some p => some p.2
  | none => none

/-- Association-list member write: replace an existing key in place,
otherwise append (JS property insertion order). -/
def alSet {α : Type} (l : List (String × α)) (k : String) (v : α) : List (String × α) :=
  match l with
  | [] => [(k, v)]
  | (k', v') :: rest => if k' = k then (k, v) :: rest else (k', v') :: alSet rest k v

section Injector

/-!
`buildInjector` of `src/enforcers/Schema.js` (lines 658-671): a generated
regular expression is run repeatedly with `exec` over the template string;
each match `:name`, `{name}` or `{{name}}` is replaced by `data[name]`
when that is defined and left verbatim otherwise; the slices between
the matched slices are copied through.  The successive-leftmost-match semantics of
`exec` on a `/g` regex is embedded as a single left-to-right scan of the
character list; the greedy character classes cannot backtrack because the
character after the identifier run is never an identifier character.
-/

/-- The brace characters, by code point. -/
def lbrace : Char := Char.ofNat 123

def rbrace : Char := Char.ofNat 125

/-- First identifier character of a parameter name: `[_$a-z]` with the `i` flag. -/
def identStartChar (c : Char) : Bool :=
  c = '_' || c = '$' || ('a' ≤ c && c ≤ 'z') || ('A' ≤ c && c ≤ 'Z')

/-- Subsequent identifier characters: `[_$a-z0-9]` with the `i` flag. -/
def identChar (c : Char) : Bool :=
  identStartChar c || ('0' ≤ c && c ≤ '9')

/-- A matcher: at the current position, either no match starts here, or a
match yields the parameter name, the full matched text and the rest. -/
def Matcher : Type := List Char → Option (String × String × List Char)

/-- The `colon` injector regex `:([_$a-z][_$a-z0-9]*)` at the current position. -/
def colonMatch : Matcher
  | c0 :: c :: rest =>
    if c0 = ':' && identStartChar c then
      some (String.mk (c :: rest.takeWhile identChar),
            String.mk (c0 :: c :: rest.takeWhile identChar),
            rest.dropWhile identChar)
    else none
  | _ => none

/-- The `handlebar` injector regex, brace, name, brace, at the current position. -/
def handlebarMatch : Matcher
  | b :: c :: rest =>
    if b = lbrace && identStartChar c then
      match rest.dropWhile identChar with
      | b2 :: rest2 =>
        if b2 = rbrace then
          some (String.mk (c :: rest.takeWhile identChar),
                String.mk (lbrace :: c :: (rest.takeWhile identChar ++ [rbrace])),
                rest2)
        else none
      | [] => none
    else none
  | _ => none

/-- The `doubleHandlebar` injector regex, two braces around the name. -/
def doubleHandlebarMatch : Matcher
  | b0 :: b1 :: c :: rest =>
    if b0 = lbrace && b1 = lbrace && identStartChar c then
      match rest.dropWhile identChar with
      | b2 :: b3 :: rest2 =>
        if b2 = rbrace && b3 = rbrace then
          some (String.mk (c :: rest.takeWhile identChar),
                String.mk (lbrace :: lbrace :: c ::
                  (rest.takeWhile identChar ++ [rbrace, rbrace])),
                rest2)
        else none
      | _ => none
    else none
  | _ => none

/-- One replaced or copied piece of the injector output. -/
def renderPiece (params : List (String × String)) (name matched : String) : String :=
  match alGet params name with
  | some v => v
  | none => matched

/-- The `exec` loop of `buildInjector`, fuel-bounded (one unit of fuel per
consumed position; `fuel = length + 1` always suffices). -/
def injectLoop (m : Matcher) (params : List (String × String)) :
    Nat → List Char → String
  | 0, _ => ""
  | _ + 1, [] => ""
  | fuel + 1, c :: rest =>
    match m (c :: rest) with
    | some (name, matched, r) => renderPiece params name matched ++ injectLoop m params fuel r
    | none => String.singleton c ++ injectLoop m params fuel rest

/-- `buildInjector` applied to a concrete regex generator. -/
def buildInjector (m : Matcher) (params : List (String × String)) (value : String) : String :=
  injectLoop m params (value.length + 1) value.data

/-- `populateInjectors.colon`. -/
def colonInjector : List (String × String) → String → String := buildInjector colonMatch

/-- `populateInjectors.handlebar`. -/
def handlebarInjector : List (String × String) → String → String := buildInjector handlebarMatch

/-- `populateInjectors.doubleHandlebar`. -/
def doubleHandlebarInjector : List (String × String) → String → String :=
  buildInjector doubleHandlebarMatch

/-- A segment of the decomposition of a template string: a literal
character, or a parameter reference carrying its name and matched text. -/
inductive Seg where
  | lit (c : Char)
  | ref (name : String) (matched : String)
deriving DecidableEq, Repr

/-- The scan underlying the injector: the decomposition of the original
string into literal characters and parameter references.  It does not
depend on the parameter map. -/
def scanLoop (m : Matcher) : Nat → List Char → List Seg
  | 0, _ => []
  | _ + 1, [] => []
  | fuel + 1, c :: rest =>
    match m (c :: rest) with
    | some (name, matched, r) => Seg.ref name matched :: scanLoop m fuel r
    | none => Seg.lit c :: scanLoop m fuel rest

/-- The segment decomposition of a template string. -/
def scanSegs (m : Matcher) (value : String) : List Seg :=
  scanLoop m (value.length + 1) value.data

/-- Rendering of one segment under a parameter map. -/
def renderSeg (params : List (String × String)) : Seg → String
  | .lit c => String.singleton c
  | .ref name matched => renderPiece params name matched

/-- Rendering of a segment list. -/
def renderSegs (params : List (String × String)) (segs : List Seg) : String :=
  segs.foldr (fun sg acc => renderSeg params sg ++ acc) ""

/-- Reconstruction of the original text of a segment list. -/
def joinSegs (segs : List Seg) : String :=
  segs.foldr (fun sg acc => (match sg with
    | .lit c => String.singleton c
    | .ref _ matched => matched) ++ acc) ""

end Injector

section DataTypeRegistry

/-!
`defineDataTypeFormat` of `src/enforcers/Schema.js` (lines 264-293).
Function-valued members of a data type definition are abstracted to the
three-way classification that the `typeof` checks of the source observe.
-/

/-- What `defineDataTypeFormat` observes of a member value. -/
inductive JsLite where
  | jsFunction
  | truthyNonFunction
  | falsyNonFunction
deriving DecidableEq, Repr

/-- JS truthiness of a `JsLite`. -/
def jsLiteTruthy : JsLite → Bool
  | .jsFunction => true
  | .truthyNonFunction => true
  | .falsyNonFunction => false

/-- A data type definition object (fields absent or present). -/
structure DTDef where
  deserialize : Option JsLite
  serialize : Option JsLite
  validate : Option JsLite
  random : Option JsLite
  constructors : Option (List JsLite)
deriving DecidableEq, Repr

/-- The `definition` parameter: `null`, a plain object, or anything else. -/
inductive DTParam where
  | nullDef
  | objDef (d : DTDef)
  | nonObjectDef
deriving DecidableEq, Repr

/-- A stored registry entry: `Object.assign(\x7b\x7d, definition, \x7b type, format \x7d)`. -/
structure StoredDT where
  def? : Option DTDef
  type : String
  format : String
deriving DecidableEq, Repr

/-- The per-root static state of the Schema component: the data type
registry, the process-wide constructors set and the warned-once keys. -/
structure SchemaStatics where
  dataTypes : List (String × List (String × StoredDT))
  constructors : List JsLite
  warned : List String
deriving DecidableEq, Repr

/-- The registry as initialized by `statics` (lines 254-259). -/
def initialStatics : SchemaStatics :=
  { dataTypes := [("boolean", []), ("integer", []), ("number", []), ("string", [])]
    constructors := []
    warned := [] }

/-- Whether a member is a function, as `typeof x === 'function'`. -/
def isFnMember (m : Option JsLite) : Bool := m = some JsLite.jsFunction

/-- The `forEach` over `definition.constructors` (lines 278-281): the first
non-function member throws, otherwise all members are added to the set. -/
def addConstructors (st : SchemaStatics) : List JsLite → Except String SchemaStatics
  | [] => .ok st
  | f :: rest =>
    if f = JsLite.jsFunction then
      addConstructors { st with constructors := st.constructors ++ [f] } rest
    else
      .error "Invalid constructor specified. Expected a function, received: [object]"

/-- `defineDataTypeFormat(type, format, definition)`, lines 264-293 of
`src/enforcers/Schema.js`, including the duplicate check exactly as
written there: `dataTypes.hasOwnProperty(format)` tests `format` against
the top-level keys of `dataTypes` (the four type names). -/
def defineDataTypeFormat (type format : String) (definition : DTParam)
    (st : SchemaStatics) : Except String SchemaStatics := do
  let typeKeys := st.dataTypes.map (fun p => p.1)
  if ¬ typeKeys.contains type then
    throw ("Invalid type specified. Must be one of: " ++ String.intercalate ", " typeKeys)
  else if format = "" then
    throw "Invalid format specified. Must be a non-empty string"
  else if typeKeys.contains format then
    throw ("Format \"" ++ format ++ "\" is already defined")
  else do
    let st1 ←
      match definition with
      | .nullDef => pure st
      | .nonObjectDef =>
        throw "Invalid data type definition. Must be an object that defines handlers for \"deserialize\", \"serialize\", and \"validate\" with optional \"random\" handler."
      | .objDef d =>
        if ¬ isFnMember d.deserialize || ¬ isFnMember d.serialize || ¬ isFnMember d.validate
            || ((d.random.map jsLiteTruthy).getD false && ¬ isFnMember d.random) then
          throw "Invalid data type definition. Must be an object that defines handlers for \"deserialize\", \"serialize\", and \"validate\" with optional \"random\" handler."
        else
          match d.constructors with
          | some fns =>
            match addConstructors st fns with
            | .ok st' => pure st'
            | .error e => throw e
          | none =>
            let key := type ++ "-" ++ format
            if st.warned.contains key then pure st
            else pure { st with warned := st.warned ++ [key] }
    let stored : StoredDT :=
      { def? := (match definition with
          | .objDef d => some d
          | _ => none)
        type := type
        format := format }
    let dts := st1.dataTypes.map (fun p =>
      if p.1 = type then (p.1, alSet p.2 format stored) else p)
    pure { st1 with dataTypes := dts }

/-- A well-formed data type definition supplying the three required
function handlers (used as a concrete input below). -/
def dtDefOk : DTDef :=
  { deserialize := some .jsFunction
    serialize := some .jsFunction
    validate := some .jsFunction
    random := none
    constructors := some [] }

/-- The state after a first, successful registration of `("string", "fancy")`. -/
def stAfterFirst : SchemaStatics :=
  match defineDataTypeFormat "string" "fancy" (.objDef dtDefOk) initialStatics with
  | .ok st => st
  | .error _ => initialStatics

end DataTypeRegistry

section SchemaErrors

/-!
The cross-field `errors` callback of the Schema meta-validator
(`src/enforcers/Schema.js`, lines 607-648) and its helper `minMaxValid`
(lines 690-695).  Messages are modelled as a tagged type together with
the exact rendering of the source strings.
-/

/-- JS truthiness of an optional boolean flag (absent means `undefined`). -/
def truthyFlag (o : Option Bool) : Bool := o.getD false

/-- `minMaxValid(minimum, maximum, exclusiveMinimum, exclusiveMaximum)`:
`true` when either bound is undefined, otherwise requires strictly less,
or equal with neither exclusive flag truthy. -/
def minMaxValid (minimum maximum : Option Int) (exclusiveMinimum exclusiveMaximum : Option Bool) : Bool :=
  match minimum, maximum with
  | none, _ => true
  | _, none => true
  | some mn, some mx =>
    mn < mx || (¬ truthyFlag exclusiveMinimum && ¬ truthyFlag exclusiveMaximum && mn = mx)

/-- The materialized result of normalizing a schema definition, restricted
to the fields read by the `errors` callback.  `Option` fields model
`hasOwnProperty`; the four composite booleans model presence of the
composite keys. -/
structure SchemaResult where
  minItems : Option Int
  maxItems : Option Int
  minLength : Option Int
  maxLength : Option Int
  minProperties : Option Int
  maxProperties : Option Int
  required : Option (List String)
  minimum : Option Int
  maximum : Option Int
  exclusiveMinimum : Option Bool
  exclusiveMaximum : Option Bool
  properties : Option (List (String × Bool × Bool))
  allOf : Bool
  anyOf : Bool
  oneOf : Bool
  notComposite : Bool
deriving DecidableEq, Repr

/-- The messages the `errors` callback can attach. -/
inductive SchemaMsg where
  | minMaxItems
  | minMaxLength
  | minMaxProps
  | tooManyRequired
  | minBelowMax (orEqual : Bool)
  | readWriteConflict (key : String)
  | multipleComposites (names : List String)
deriving DecidableEq, Repr

/-- Exact message strings of the source. -/
def renderSchemaMsg : SchemaMsg → String
  | .minMaxItems => "Property \"minItems\" must be less than or equal to \"maxItems\""
  | .minMaxLength => "Property \"minLength\" must be less than or equal to \"maxLength\""
  | .minMaxProps => "Property \"minProperties\" must be less than or equal to \"maxProperties\""
  | .tooManyRequired => "There are more required properties than is allows by \"maxProperties\" contraint"
  | .minBelowMax orEqual =>
    "Property \"minimum\" must be less than " ++ (if orEqual then "or equal to " else "")
      ++ "\"maximum\""
  | .readWriteConflict _ => "Cannot be marked as both readOnly and writeOnly"
  | .multipleComposites names => "Cannot have multiple composites: " ++ String.intercalate ", " names

/-- The composites present, collected in the fixed source order
`['allOf', 'anyOf', 'oneOf', 'not']`. -/
def presentComposites (r : SchemaResult) : List String :=
  (if r.allOf then ["allOf"] else []) ++ (if r.anyOf then ["anyOf"] else [])
    ++ (if r.oneOf then ["oneOf"] else []) ++ (if r.notComposite then ["not"] else [])

/-- The `errors` callback of the Schema meta-validator: the messages
attached, in source order. -/
def schemaErrors (r : SchemaResult) : List SchemaMsg :=
  (if minMaxValid r.minItems r.maxItems none none then [] else [.minMaxItems])
  ++ (if minMaxValid r.minLength r.maxLength none none then [] else [.minMaxLength])
  ++ (if minMaxValid r.minProperties r.maxProperties none none then [] else [.minMaxProps])
  ++ (match r.required, r.maxProperties with
      | some req, some mp => if (req.length : Int) > mp then [.tooManyRequired] else []
      | _, _ => [])
  ++ (if minMaxValid r.minimum r.maximum r.exclusiveMinimum r.exclusiveMaximum then []
      else [.minBelowMax (!(truthyFlag r.exclusiveMinimum || truthyFlag r.exclusiveMaximum))])
  ++ (match r.properties with
      | some ps => ps.filterMap (fun p => if p.2.1 && p.2.2 then some (.readWriteConflict p.1) else none)
      | none => [])
  ++ (let composites := presentComposites r
      if composites.length > 1 then [.multipleComposites composites] else [])

/-- A schema result with no fields set, to build concrete instances from. -/
def emptySchemaResult : SchemaResult :=
  { minItems := none, maxItems := none, minLength := none, maxLength := none
    minProperties := none, maxProperties := none, required := none
    minimum := none, maximum := none, exclusiveMinimum := none, exclusiveMaximum := none
    properties := none, allOf := false, anyOf := false, oneOf := false, notComposite := false }

/-- Projection used to isolate the composite message. -/
def compositeNamesOf : SchemaMsg → Option (List String)
  | .multipleComposites names => some names
  | _ => none

/-- Projection used to isolate the minimum/maximum message. -/
def minBelowMaxOf : SchemaMsg → Option Bool
  | .minBelowMax orEqual => some orEqual
  | _ => none

end SchemaErrors

section Discriminate

/-!
`prototype.discriminate` of `src/enforcers/Schema.js` (lines 57-85).
Schema instances reachable through the root are modelled as numeric ids.
-/

/-- The discriminator of a schema node: a property name string in v2, an
object with `propertyName` and optional `mapping` in v3. -/
inductive Disc where
  | v2 (name : String)
  | v3 (propertyName : Option String) (mapping : Option (List (String × Nat)))
deriving DecidableEq, Repr

/-- JS falsiness of the discriminator member (`if (!discriminator) return undefined`):
absent members and the empty v2 string are falsy, objects are truthy. -/
def discFalsy : Option Disc → Bool
  | none => true
  | some (.v2 s) => s = ""
  | some (.v3 _ _) => false

/-- The fields of a schema node and its `enforcerData` that `discriminate` reads. -/
structure DiscSchema where
  major : Nat
  discriminator : Option Disc
  rootDefinitions : Option (List (String × Nat))
  rootComponents : Option (Option (List (String × Nat)))
deriving DecidableEq, Repr

/-- The result of `discriminate`: `undefined`, the schema (or `undefined`)
when `details` is false, or the `\x7b key, name, schema \x7d` record when
`details` is true. -/
inductive DiscOut where
  | undef
  | schemaOnly (schema : Option Nat)
  | detailed (key : Option String) (name : Option String) (schema : Option Nat)
deriving DecidableEq, Repr

/-- `discriminate(value, details)`.  `value` is `undefined` or a plain
object with string-valued members (the shape the discriminator reads). -/
def discriminate (sch : DiscSchema) (value : Option (List (String × String)))
    (details : Bool) : DiscOut :=
  if discFalsy sch.discriminator then DiscOut.undef
  else
    let keyNameSchema : Option String × Option String × Option Nat :=
      match sch.major, sch.discriminator with
      | 2, some (.v2 d) =>
        let name := match value with
          | some fields => alGet fields d
          | none => none
        let schema := match name with
          | some n =>
            if n ≠ "" then
              match sch.rootDefinitions with
              | some defs => alGet defs n
              | none => none
            else none
          | none => none
        (some d, name, schema)
      | 3, some (.v3 pn mapping) =>
        let name := match pn, value with
          | some p, some fields => alGet fields p
          | _, _ => none
        let schema := match name with
          | some n =>
            if n ≠ "" then
              match mapping with
              | some mp =>
                match alGet mp n with
                | some sid => some sid
                | none =>
                  match sch.rootComponents with
                  | some (some schemas) => alGet schemas n
                  | _ => none
              | none =>
                match sch.rootComponents with
                | some (some schemas) => alGet schemas n
                | _ => none
            else none
          | none => none
        (pn, name, schema)
      | _, _ => (none, none, none)
    if details then DiscOut.detailed keyNameSchema.1 keyNameSchema.2.1 keyNameSchema.2.2
    else DiscOut.schemaOnly keyNameSchema.2.2

end Discriminate

section NormalizerModel

/-!
The normalizer of the unnamed source file (`normalize`, `childData`,
`runChildValidator`, `validateType`, `fn` and `expectedTypeMessage`).
State (the result heap, the circular-reference `map` and the exception
collector) is threaded explicitly; JavaScript exceptions are an explicit
error channel that `normalize` catches; a fuel argument bounds recursion
depth so that every function is total, with fuel exhaustion (`none`)
distinct from both normal results and thrown errors.

Descriptor callbacks are modelled as Lean functions receiving the
callback view of the walk context together with the current state, and
returning messages to attach plus either a value or a thrown error.
-/

/-- The `definitionType` classification of a value. -/
inductive DType where
  | tArray
  | tObject
  | tBoolean
  | tNumber
  | tString
  | tNull
  | tUndefined
deriving DecidableEq, Repr

/-- The string name of a definition type, as compared against `validator.type`. -/
def dtypeName : DType → String
  | .tArray => "array"
  | .tObject => "object"
  | .tBoolean => "boolean"
  | .tNumber => "number"
  | .tString => "string"
  | .tNull => "null"
  | .tUndefined => "undefined"

/-- Modelled from the spec: `util.getDefinitionType` is not among the
given sources; per the walk-context description it classifies a value as
one of array, object, boolean, number, string, null, undefined. -/
def getDefinitionType (H : DefHeap) (resHeap : List Node) (v : Val) : DType :=
  match v with
  | .prim .pnull => .tNull
  | .prim .pundef => .tUndefined
  | .prim (.pbool _) => .tBoolean
  | .prim (.pnum _) => .tNumber
  | .prim (.pstr _) => .tString
  | .dref i =>
    match H.get? i with
    | some (.arrN _) => .tArray
    | some (.objN _) => .tObject
    | none => .tUndefined
  | .rref i =>
    match resHeap.get? i with
    | some (.arrN _) => .tArray
    | some (.objN _) => .tObject
    | none => .tUndefined

/-- Whether a value is an object in the sense of the circular-reference
guard, `definition && typeof definition === 'object'`. -/
def Val.isObjectVal : Val → Bool
  | .dref _ => true
  | .rref _ => true
  | .prim _ => false

/-- The mutable state of one normalization walk. -/
structure St where
  resHeap : List Node
  map : List (Val × Val)
  exc : List (EPath × String)
deriving DecidableEq, Repr

/-- The view of a walk context passed to descriptor callbacks.  Parent
and root are views as well, so callbacks can inspect ancestors. -/
inductive CbCtx where
  | mk (definition : Val) (definitionType : DType) (key : Option Key)
      (path warnPath : EPath) (result : Val) (major minor patch : Nat)
      (parent root : Option CbCtx)

/-- The exception path of a callback view. -/
def CbCtx.path : CbCtx → EPath
  | .mk _ _ _ p _ _ _ _ _ _ _ => p

/-- Messages a callback attaches (path and text). -/
abbrev Msgs : Type := List (EPath × String)

/-- A descriptor field that is either a literal or a callback. -/
inductive FieldV (α : Type) where
  | lit (a : α)
  | cb (f : CbCtx → St → Msgs × Except String α)

/-- The value of `validator.type`: a single type name or an array of them. -/
inductive TypeV where
  | single (t : String)
  | multiple (ts : List String)

/-- A validator descriptor value: the literals `true`, `false`,
`null`/`undefined`, a callback, an `EnforcerRef`, or a capability set.
The `EnforcerRef` module is not among the given sources; per the spec it
is a marker carrying a component name and an optional inline `config`. -/
inductive Validator where
  | vTrue
  | vFalse
  | vNull
  | vFn (f : CbCtx → St → Msgs × Except String Validator)
  | eref (name : String) (config : Option Validator)
  | desc (type : Option (FieldV TypeV))
      (enum : Option (FieldV (List Val)))
      (items : Option Validator)
      (additionalProperties : Option Validator)
      (properties : Option (List (String × Validator)))
      (allowed : Option (FieldV Bool))
      (required : Option (FieldV Bool))
      (ignored : Option (FieldV Bool))
      (dflt : Option (FieldV Val))
      (errors : Option (CbCtx → St → Msgs × Except String Unit))
      (weight : Option Int)

/-- JS truthiness of a validator value. -/
def Validator.truthy : Validator → Bool
  | .vNull => false
  | .vFalse => false
  | _ => true

/-- Whether the validator is `null`/`undefined` (member access throws). -/
def Validator.isNull : Validator → Bool
  | .vNull => true
  | _ => false

/-- The `type` member. -/
def Validator.typeF : Validator → Option (FieldV TypeV)
  | .desc t _ _ _ _ _ _ _ _ _ _ => t
  | _ => none

/-- The `enum` member. -/
def Validator.enumF : Validator → Option (FieldV (List Val))
  | .desc _ e _ _ _ _ _ _ _ _ _ => e
  | _ => none

/-- The `items` member; absent members read as `undefined` (`vNull`). -/
def Validator.itemsOf : Validator → Validator
  | .desc _ _ (some i) _ _ _ _ _ _ _ _ => i
  | _ => .vNull

/-- The `additionalProperties` member. -/
def Validator.apOf : Validator → Option Validator
  | .desc _ _ _ ap _ _ _ _ _ _ _ => ap
  | _ => none

/-- The `properties` member, after `validator.properties || \x7b\x7d`. -/
def Validator.propsOf : Validator → List (String × Validator)
  | .desc _ _ _ _ (some ps) _ _ _ _ _ _ => ps
  | _ => []

/-- The `allowed` member (presence models `hasOwnProperty('allowed')`). -/
def Validator.allowedF : Validator → Option (FieldV Bool)
  | .desc _ _ _ _ _ a _ _ _ _ _ => a
  | _ => none

/-- The `required` member. -/
def Validator.requiredF : Validator → Option (FieldV Bool)
  | .desc _ _ _ _ _ _ r _ _ _ _ => r
  | _ => none

/-- The `ignored` member. -/
def Validator.ignoredF : Validator → Option (FieldV Bool)
  | .desc _ _ _ _ _ _ _ i _ _ _ => i
  | _ => none

/-- Presence of the `default` member (`hasOwnProperty('default')`). -/
def Validator.hasDefault : Validator → Bool
  | .desc _ _ _ _ _ _ _ _ (some _) _ _ => true
  | _ => false

/-- The `default` member, when present. -/
def Validator.defaultFld : Validator → Option (FieldV Val)
  | .desc _ _ _ _ _ _ _ _ d _ _ => d
  | _ => none

/-- The `errors` member. -/
def Validator.errorsOf : Validator → Option (CbCtx → St → Msgs × Except String Unit)
  | .desc _ _ _ _ _ _ _ _ _ e _ => e
  | _ => none

/-- The `weight` member after `property.weight || 0`. -/
def weightOf : Validator → Int
  | .desc _ _ _ _ _ _ _ _ _ _ w => w.getD 0
  | _ => 0

/-- The empty capability set, standing for a plain `\x7b\x7d` descriptor. -/
def emptyDesc : Validator :=
  .desc none none none none none none none none none none none

/-- A walk context.  `parentView` and `rootView` are the callback views
of the parent and root contexts (the normalizer itself only ever stores
these back-references and hands them to callbacks). -/
structure Ctx where
  definition : Val
  definitionType : DType
  validator : Validator
  key : Option Key
  path : EPath
  warnPath : EPath
  result : Val
  major : Nat
  minor : Nat
  patch : Nat
  context : List (String × Validator)
  parentView : Option CbCtx
  rootView : Option CbCtx

/-- The callback view of a walk context. -/
def ctxView (c : Ctx) : CbCtx :=
  .mk c.definition c.definitionType c.key c.path c.warnPath c.result
    c.major c.minor c.patch c.parentView c.rootView

/-- The normalization monad: state plus a JavaScript error channel plus
fuel exhaustion (`none`), which is distinct from thrown errors. -/
def NM (α : Type) : Type := St → Option (Except String α × St)

/-- Monadic return. -/
def NM.pure {α : Type} (a : α) : NM α := fun s => some (.ok a, s)

/-- Monadic bind: fuel exhaustion and thrown errors short-circuit. -/
def NM.bind {α β : Type} (m : NM α) (k : α → NM β) : NM β := fun s =>
  match m s with
  | none => none
  | some (.error e, s') => some (.error e, s')
  | some (.ok a, s') => k a s'

instance : Monad NM where
  pure := NM.pure
  bind := NM.bind

/-- Throw a JavaScript error. -/
def nmThrow {α : Type} (e : String) : NM α := fun s => some (.error e, s)

/-- `try`/`catch`: thrown errors go to the handler; fuel exhaustion does not. -/
def nmCatch {α : Type} (m : NM α) (h : String → NM α) : NM α := fun s =>
  match m s with
  | some (.error e, s') => h e s'
  | other => other

/-- Fuel exhaustion. -/
def fuelOut {α : Type} : NM α := fun _ => none

/-- Record one message on the exception collector. -/
def pushExc (p : EPath) (m : String) : NM Unit := fun s =>
  some (.ok (), { s with exc := s.exc ++ [(p, m)] })

/-- Allocate a fresh node on the result heap, returning its id. -/
def allocNode (n : Node) : NM Nat := fun s =>
  some (.ok s.resHeap.length, { s with resHeap := s.resHeap ++ [n] })

/-- Overwrite a result-heap node. -/
def setRes (i : Nat) (n : Node) : NM Unit := fun s =>
  some (.ok (), { s with resHeap := s.resHeap.set i n })

/-- Lookup in the circular-reference map (`Map` keyed by identity). -/
def valMapLookup (m : List (Val × Val)) (k : Val) : Option Val :=
  match m.find? (fun p => p.1 = k) with
  | some p => some p.2
  | none => none

/-- `map.set`: replace in place or append. -/
def valMapSet (m : List (Val × Val)) (k v : Val) : List (Val × Val) :=
  match m with
  | [] => [(k, v)]
  | (k', v') :: rest => if k' = k then (k, v) :: rest else (k', v') :: valMapSet rest k v

/-- `map.get` as a monadic step. -/
def mapGetOp (k : Val) : NM (Option Val) := fun s =>
  some (.ok (valMapLookup s.map k), s)

/-- `map.set` as a monadic step. -/
def mapSetOp (k v : Val) : NM Unit := fun s =>
  some (.ok (), { s with map := valMapSet s.map k v })

/-- The message wrapping a caught error (`err.stack` is the error text). -/
def unexpectedMsg (e : String) : String := "Unexpected error encountered: " ++ e

/-- The error thrown by a member read on `null`/`undefined`. -/
def nullRead (member : String) : String :=
  "TypeError: Cannot read properties of null or undefined reading " ++ member

/-- Modelled from the spec: `util.smart` is not among the given sources;
it renders a value for an error message. -/
def smartVal : Val → String
  | .prim .pnull => "null"
  | .prim .pundef => "undefined"
  | .prim (.pbool b) => if b then "true" else "false"
  | .prim (.pnum n) => toString n
  | .prim (.pstr s) => "\"" ++ s ++ "\""
  | .dref _ => "[object]"
  | .rref _ => "[object]"

/-- String coercion used by `Array.prototype.join`. -/
def valToString : Val → String
  | .prim .pnull => "null"
  | .prim .pundef => "undefined"
  | .prim (.pbool b) => if b then "true" else "false"
  | .prim (.pnum n) => toString n
  | .prim (.pstr s) => s
  | .dref _ => "[object Object]"
  | .rref _ => "[object Object]"

/-- Run a descriptor field: literals pass through; callbacks run with
`fn` semantics, a thrown error being recorded as an unexpected-error
message at the context path with `undefined` (`none`) returned. -/
def evalField {α : Type} (fld : FieldV α) (c : CbCtx) : NM (Option α) := fun s =>
  match fld with
  | .lit a => some (.ok (some a), s)
  | .cb f =>
    match f c s with
    | (msgs, .ok a) => some (.ok (some a), { s with exc := s.exc ++ msgs })
    | (msgs, .error e) =>
      some (.ok none, { s with exc := (s.exc ++ msgs) ++ [(c.path, unexpectedMsg e)] })

/-- `fn(data.validator, data)`: non-functions pass through, function
validators run with the same catch behaviour as `evalField`. -/
def runFnValidator (v : Validator) (c : CbCtx) : NM (Option Validator) := fun s =>
  match v with
  | .vFn f =>
    match f c s with
    | (msgs, .ok v') => some (.ok (some v'), { s with exc := s.exc ++ msgs })
    | (msgs, .error e) =>
      some (.ok none, { s with exc := (s.exc ++ msgs) ++ [(c.path, unexpectedMsg e)] })
  | _ => some (.ok (some v), s)

/-- `fn(keyValidator.errors, d)` and `fn(validator.errors, d)`: run for
effect only, with the same catch behaviour. -/
def runErrorsCb (f : CbCtx → St → Msgs × Except String Unit) (c : CbCtx) : NM Unit := fun s =>
  match f c s with
  | (msgs, .ok _) => some (.ok (), { s with exc := s.exc ++ msgs })
  | (msgs, .error e) =>
    some (.ok (), { s with exc := (s.exc ++ msgs) ++ [(c.path, unexpectedMsg e)] })

/-- Truthiness of a boolean descriptor field value (functions are truthy). -/
def fieldTruthyB : FieldV Bool → Bool
  | .lit b => b
  | .cb _ => true

/-- Truthiness of the `type` field value (empty string is falsy). -/
def typeFieldTruthy : FieldV TypeV → Bool
  | .lit (.single t) => t ≠ ""
  | .lit (.multiple _) => true
  | .cb _ => true

/-- Coercion `if (!Array.isArray(ms)) ms = [ms]`; a callback
that threw yields `[undefined]`. -/
def coerceTypeMatches : Option TypeV → List (Option String)
  | none => [none]
  | some (.single t) => [some t]
  | some (.multiple ts) => ts.map some

/-- `expectedTypeMessage` of the source (with `undefined` rendering as in JS). -/
def expectedTypeMessage : Option String → String
  | some t => if t = "array" then "an array" else if t = "object" then "a plain object" else "a " ++ t
  | none => "a undefined"

/-- The enumeration-of-types phrase of the type error message. -/
def typeListMsg (ms : List (Option String)) : String :=
  match ms with
  | [t] => expectedTypeMessage t
  | [t1, t2] => expectedTypeMessage t1 ++ " or " ++ expectedTypeMessage t2
  | ts => String.intercalate ", " (ts.dropLast.map expectedTypeMessage) ++ ", or "
      ++ expectedTypeMessage ((ts.getLast?).getD none)

/-- `validateType(definitionType, data)` (lines 262-287): reads the
unresolved `data.validator`; with no (or falsy) `type`, or an undefined
definition, it passes; otherwise it requires the definition type to be
among the listed type names, attaching a message and failing otherwise. -/
def validateTypeF (ctx : Ctx) : NM Bool :=
  if ctx.validator.isNull then nmThrow (nullRead "type")
  else
    match ctx.validator.typeF with
    | none => pure true
    | some fld =>
      if ¬ typeFieldTruthy fld then pure true
      else if ctx.definition = .prim .pundef then pure true
      else do
        let mo ← evalField fld (ctxView ctx)
        let ms := coerceTypeMatches mo
        if ms.any (fun t => t = some (dtypeName ctx.definitionType)) then pure true
        else do
          pushExc ctx.path ("Value must be " ++ typeListMsg ms ++ ". Received: "
            ++ smartVal ctx.definition)
          pure false

/-- The enum mismatch message (lines 80-82): the single-value wording for
one allowed value, the one-of wording otherwise. -/
def enumMismatchMsg (vals : List Val) (defn : Val) : String :=
  if vals.length = 1 then
    "Value must be " ++ smartVal (vals.headD (.prim .pundef)) ++ ". Received: " ++ smartVal defn
  else
    "Value must be one of: " ++ String.intercalate ", " (vals.map valToString)
      ++ ". Received: " ++ smartVal defn

/-- The enum check (lines 77-84): with an `enum` member present, the
definition must be `includes`-equal (SameValueZero) to one of the allowed
values, else the mismatch message is attached; a callback that threw
leaves `ms` undefined and the subsequent `ms.includes` throws. -/
def enumStep (validator : Validator) (ctx : Ctx) : NM Unit :=
  if validator.isNull then nmThrow (nullRead "enum")
  else
    match validator.enumF with
    | none => pure ()
    | some fld => do
      let mo ← evalField fld (ctxView ctx)
      match mo with
      | none => nmThrow (nullRead "includes")
      | some ms =>
        if listIncludes ms ctx.definition then pure ()
        else pushExc ctx.path (enumMismatchMsg ms ctx.definition)

/-- A member read `value[key]` on a definition value. -/
def memberRead (H : DefHeap) (resHeap : List Node) (v : Val) (k : Key) : Except String Val :=
  match v with
  | .prim .pnull => .error (nullRead (match k with | .kstr s => s | .kidx i => toString i))
  | .prim .pundef => .error (nullRead (match k with | .kstr s => s | .kidx i => toString i))
  | .prim _ => .ok (.prim .pundef)
  | .dref i =>
    match H.get? i with
    | some (.arrN es) =>
      .ok (match k with
        | .kidx j => (es.get? j).getD (.prim .pundef)
        | .kstr _ => .prim .pundef)
    | some (.objN fs) =>
      .ok (match k with
        | .kstr s => (alGet fs s).getD (.prim .pundef)
        | .kidx _ => .prim .pundef)
    | none => .ok (.prim .pundef)
  | .rref i =>
    match resHeap.get? i with
    | some (.arrN es) =>
      .ok (match k with
        | .kidx j => (es.get? j).getD (.prim .pundef)
        | .kstr _ => .prim .pundef)
    | some (.objN fs) =>
      .ok (match k with
        | .kstr s => (alGet fs s).getD (.prim .pundef)
        | .kidx _ => .prim .pundef)
    | none => .ok (.prim .pundef)

/-- Build the child context record of `childData` (lines 25-56). -/
def mkChild (parent : Ctx) (k : Key) (validator : Validator) (definition : Val)
    (dt : DType) (result : Val) : Ctx :=
  { definition := definition
    definitionType := dt
    validator := validator
    key := some k
    path := parent.path ++ [k]
    warnPath := parent.warnPath ++ [k]
    result := result
    major := parent.major
    minor := parent.minor
    patch := parent.patch
    context := parent.context
    parentView := some (ctxView parent)
    rootView := parent.rootView }

/-- `childData(parent, key, validator)`: reads the member, classifies it,
and preallocates an empty result container for arrays and objects. -/
def childDataF (H : DefHeap) (parent : Ctx) (k : Key) (validator : Validator) : NM Ctx := fun s =>
  match memberRead H s.resHeap parent.definition k with
  | .error e => some (.error e, s)
  | .ok definition =>
    match getDefinitionType H s.resHeap definition with
    | .tArray =>
      some (.ok (mkChild parent k validator definition .tArray (.rref s.resHeap.length)),
        { s with resHeap := s.resHeap ++ [.arrN []] })
    | .tObject =>
      some (.ok (mkChild parent k validator definition .tObject (.rref s.resHeap.length)),
        { s with resHeap := s.resHeap ++ [.objN []] })
    | dt => some (.ok (mkChild parent k validator definition dt definition), s)

/-- A member write `result[key] = v`.  Writes to object results replace
or append the field; writes through a primitive target throw (strict
mode); a string-keyed write to an array result is not tracked. -/
def objSetMember (target : Val) (k : String) (v : Val) : NM Unit :=
  match target with
  | .rref rid => fun s =>
    match s.resHeap.get? rid with
    | some (.objN fs) => some (.ok (), { s with resHeap := s.resHeap.set rid (.objN (alSet fs k v)) })
    | some (.arrN _) => some (.ok (), s)
    | none => some (.ok (), s)
  | .dref _ => fun s => some (.ok (), s)
  | .prim _ => nmThrow "TypeError: Cannot set member of a primitive"

/-- `result.push(v)`: appends to an array result; a `push` call on
anything else throws. -/
def arrPushMember (target : Val) (v : Val) : NM Unit :=
  match target with
  | .rref rid => fun s =>
    match s.resHeap.get? rid with
    | some (.arrN es) => some (.ok (), { s with resHeap := s.resHeap.set rid (.arrN (es ++ [v])) })
    | some (.objN _) => some (.error "TypeError: push is not a function", s)
    | none => some (.error "TypeError: push is not a function", s)
  | _ => nmThrow "TypeError: push is not a function"

/-- The `keyValidator` of the per-property loops:
`EnforcerRef.isEnforcerRef(validator) ? validator.config || \x7b\x7d : validator`,
whose subsequent `hasOwnProperty` read throws on `null`/`undefined`. -/
def kvOf (v : Validator) : Except String Validator :=
  match v with
  | .vNull => .error (nullRead "hasOwnProperty")
  | .eref _ config =>
    .ok (match config with
      | some c => if c.truthy then c else emptyDesc
      | none => emptyDesc)
  | v => .ok v

/-- `keyValidator.hasOwnProperty('allowed') ? fn(keyValidator.allowed, d) : true`,
coerced to truthiness (a throwing callback yields `undefined`, falsy). -/
def evalAllowed (kv : Validator) (c : CbCtx) : NM Bool :=
  match kv.allowedF with
  | none => pure true
  | some fld => do
    let b ← evalField fld c
    pure (b.getD false)

/-- The gate `!keyValidator.ignored || !fn(keyValidator.ignored, d)`:
`true` means the child is processed. -/
def evalIgnoredGate (kv : Validator) (c : CbCtx) : NM Bool :=
  match kv.ignoredF with
  | none => pure true
  | some fld =>
    if ¬ fieldTruthyB fld then pure true
    else do
      let b ← evalField fld c
      pure (!(b.getD false))

/-- `keyValidator.required && fn(keyValidator.required, d)` as truthiness. -/
def evalRequired (kv : Validator) (c : CbCtx) : NM Bool :=
  match kv.requiredF with
  | none => pure false
  | some fld =>
    if ¬ fieldTruthyB fld then pure false
    else do
      let b ← evalField fld c
      pure (b.getD false)

end NormalizerModel

section NormalizerWalk

/-!
Modelled from the spec: `util.copy` is not among the given sources; per
the spec the free-form object branch deep-copies the definition.  The
copy is cycle-safe through a seen map from definition ids to their
copies; the fuel `|H| + 1` used below is enough for any input.
-/

mutual

/-- Deep copy of one definition value. -/
def copyValF (H : DefHeap) (fuel : Nat) (seen : List (Nat × Val)) (v : Val) :
    NM (Val × List (Nat × Val)) :=
  match fuel with
  | 0 => pure (.prim .pundef, seen)
  | fuel + 1 =>
    match v with
    | .prim p => pure (.prim p, seen)
    | .rref i => pure (.rref i, seen)
    | .dref i =>
      match seen.find? (fun p => p.1 = i) with
      | some p => pure (p.2, seen)
      | none =>
        match H.get? i with
        | none => pure (.prim .pundef, seen)
        | some (.arrN es) => do
          let rid ← allocNode (.arrN [])
          let seen1 := (i, Val.rref rid) :: seen
          let (vs, seen2) ← copyListF H fuel seen1 es
          setRes rid (.arrN vs)
          pure (.rref rid, seen2)
        | some (.objN fs) => do
          let rid ← allocNode (.objN [])
          let seen1 := (i, Val.rref rid) :: seen
          let (fs', seen2) ← copyFieldsF H fuel seen1 fs
          setRes rid (.objN fs')
          pure (.rref rid, seen2)

termination_by (fuel, 0)

/-- Deep copy of array elements. -/
def copyListF (H : DefHeap) (fuel : Nat) (seen : List (Nat × Val)) (l : List Val) :
    NM (List Val × List (Nat × Val)) :=
  match l with
  | [] => pure ([], seen)
  | e :: rest => do
    let (v, seen1) ← copyValF H fuel seen e
    let (vs, seen2) ← copyListF H fuel seen1 rest
    pure (v :: vs, seen2)

termination_by (fuel, l.length + 1)

/-- Deep copy of object fields. -/
def copyFieldsF (H : DefHeap) (fuel : Nat) (seen : List (Nat × Val)) (l : List (String × Val)) :
    NM (List (String × Val) × List (Nat × Val)) :=
  match l with
  | [] => pure ([], seen)
  | (k, e) :: rest => do
    let (v, seen1) ← copyValF H fuel seen e
    let (fs, seen2) ← copyFieldsF H fuel seen1 rest
    pure ((k, v) :: fs, seen2)
termination_by (fuel, l.length + 1)

end

/-- `Object.assign(result, copied)`: write every field of the copied
object onto the result container. -/
def objAssign (target : Val) (source : Val) : NM Unit := fun s =>
  match source with
  | .rref rid =>
    match s.resHeap.get? rid with
    | some (.objN fs) =>
      (fs.foldlM (fun _ kv => objSetMember target kv.1 kv.2) ()) s
    | _ => some (.ok (), s)
  | _ => some (.ok (), s)

/-- `runChildValidator(data)` (lines 243-260).  The component-instantiation
arm is modelled from the spec: the component constructors (`data.context`)
are not among the given sources; per the spec an `EnforcerRef` on an
object-valued child instantiates the named component, which normalizes the
child against the component validator from the `context` table, sharing
the same walk state (and in particular the circular-reference map). -/
def runChildValidatorF (norm : Ctx → NM Val) (H : DefHeap) (data0 : Ctx) : NM Val := do
  let vO ← runFnValidator data0.validator (ctxView data0)
  let validator := vO.getD .vNull
  let data := { data0 with validator := validator }
  match validator with
  | .eref name config =>
    if data.definitionType = .tBoolean then
      norm { data with validator := config.getD .vNull }
    else if data.definitionType = .tObject then
      match alGet data.context name with
      | some compV => norm { data with validator := compV }
      | none => nmThrow ("TypeError: " ++ name ++ " is not a constructor")
    else do
      pushExc data.path "Value must be a plain object"
      pure (.prim .pundef)
  | v =>
    if v.truthy then norm data
    else pure data.result

/-- The element loop of the array branch (lines 86-90). -/
def arrayLoop (norm : Ctx → NM Val) (H : DefHeap) (data : Ctx) (items : Validator) :
    Nat → List Val → NM Unit
  | _, [] => pure ()
  | i, _ :: rest => do
    let child ← childDataF H data (.kidx i) items
    let v ← runChildValidatorF norm H child
    arrPushMember data.result v
    arrayLoop norm H data items (i + 1) rest

/-- The per-key loop of the `additionalProperties` branch (lines 103-126). -/
def addPropsLoop (norm : Ctx → NM Val) (H : DefHeap) (data : Ctx) (ap : Validator) :
    List String → List String → NM (List String)
  | [], na => pure na
  | k :: rest, na => do
    let child ← childDataF H data (.kstr k) ap
    let kv ← (match kvOf child.validator with
      | .ok x => pure x
      | .error e => nmThrow e)
    let allowed ← evalAllowed kv (ctxView child)
    let step ←
      (if child.definition ≠ .prim .pundef then
        if ¬ allowed then pure (na ++ [k], none)
        else do
          let run ← evalIgnoredGate kv (ctxView child)
          if run then do
            let v ← runChildValidatorF norm H child
            objSetMember data.result k v
            pure (na, some v)
          else pure (na, none)
      else pure (na, none) : NM (List String × Option Val))
    (match step.2, kv.errorsOf with
      | some v, some f =>
        runErrorsCb f (ctxView { child with definition := v })
      | _, _ => pure ())
    addPropsLoop norm H data ap rest step.1

/-- The `^x-.+` test of `rxExtension` (line 21): the key starts with
`x-` and has at least one further character. -/
def isExtensionKey (k : String) : Bool :=
  match k.data with
  | 'x' :: '-' :: _ :: _ => true
  | _ => false

/-- The extension-key split of the structured branch (lines 130-137):
keys matching `^x-.+` are copied verbatim into the result, the others
are collected as unknown keys. -/
def splitExtensions (data : Ctx) : List (String × Val) → NM (List String)
  | [] => pure []
  | (k, v) :: rest =>
    if isExtensionKey k then do
      objSetMember data.result k v
      splitExtensions data rest
    else do
      let unknown ← splitExtensions data rest
      pure (k :: unknown)

/-- Build the decorated property list (lines 140-148): a child context and
the weight `property.weight || 0` per declared property, removing each
declared key from the unknown keys (`util.arrayRemoveItem`, modelled from
the spec as first-occurrence removal). -/
def decorateProps (H : DefHeap) (data : Ctx) :
    List (String × Validator) → List String → NM (List (Ctx × Int) × List String)
  | [], unknown => pure ([], unknown)
  | (k, pv) :: rest, unknown => do
    let child ← childDataF H data (.kstr k) pv
    let rec0 ← decorateProps H data rest (unknown.erase k)
    pure ((child, weightOf pv) :: rec0.1, rec0.2)

/-- JS `<` on walk keys (string keys compare lexicographically). -/
def keyLt : Option Key → Option Key → Bool
  | some (.kstr x), some (.kstr y) => decide (x < y)
  | some (.kidx i), some (.kidx j) => decide (i < j)
  | _, _ => false

/-- The comparator of lines 149-153: ascending weight, ties by key. -/
def jsComparator (a b : Ctx × Int) : Int :=
  if a.2 < b.2 then -1
  else if a.2 > b.2 then 1
  else if keyLt a.1.key b.1.key then -1 else 1

/-- Insertion step of the sort under the comparator. -/
def sortInsert (x : Ctx × Int) : List (Ctx × Int) → List (Ctx × Int)
  | [] => [x]
  | y :: ys => if jsComparator x y ≤ 0 then x :: y :: ys else y :: sortInsert x ys

/-- `properties.sort(comparator)`: the sort of the decorated property
list (insertion sort; the comparator is consistent whenever the property
keys are distinct, so any compliant `Array.prototype.sort` produces this
unique order). -/
def sortProperties (l : List (Ctx × Int)) : List (Ctx × Int) := l.foldr sortInsert []

/-- The walk key rendered as the property-name string the source pushes
into `notAllowed` and `missingRequired`. -/
def keyString (k : Option Key) : String :=
  match k with
  | some (.kstr s) => s
  | some (.kidx i) => toString i
  | none => "undefined"

/-- Install a synthesized default value on a child context (lines 166-169):
the default becomes the definition and the definition type is recomputed. -/
def applyDefault (H : DefHeap) (data0 : Ctx) (nd : Val) : NM Ctx := fun s =>
  some (.ok { data0 with
      definition := nd,
      definitionType := getDefinitionType H s.resHeap nd }, s)

/-- The per-property loop of the structured branch (lines 156-180),
returning the accumulated `notAllowed` and `missingRequired` keys. -/
def propsLoop (norm : Ctx → NM Val) (H : DefHeap) (parentResult : Val) :
    List (Ctx × Int) → List String → List String → NM (List String × List String)
  | [], na, mr => pure (na, mr)
  | (data0, _) :: rest, na, mr => do
    let kv ← (match kvOf data0.validator with
      | .ok x => pure x
      | .error e => nmThrow e)
    let allowed ← evalAllowed kv (ctxView data0)
    let data ←
      if data0.definition = .prim .pundef ∧ allowed ∧ data0.validator.hasDefault then do
        let dO ← evalField ((data0.validator.defaultFld).getD (.lit (.prim .pundef)))
          (ctxView data0)
        applyDefault H data0 (dO.getD (.prim .pundef))
      else pure data0
    let acc ←
      (if data.definition ≠ .prim .pundef then
        if ¬ allowed then pure (na ++ [keyString data.key], mr)
        else do
          let run ← evalIgnoredGate kv (ctxView data)
          if run then do
            let v ← runChildValidatorF norm H data
            objSetMember parentResult (keyString data.key) v
            pure (na, mr)
          else pure (na, mr)
      else do
        if allowed then do
          let req ← evalRequired kv (ctxView data)
          if req then pure (na, mr ++ [keyString data.key]) else pure (na, mr)
        else pure (na, mr) : NM (List String × List String))
    propsLoop norm H parentResult rest acc.1 acc.2

/-- The `notAllowed` message (lines 185-187). -/
def notAllowedMsg (na : List String) : String :=
  "Propert" ++ (if na.length = 1 then "y" else "ies") ++ " not allowed: "
    ++ String.intercalate ", " na

/-- The `missingRequired` message (lines 190-192). -/
def missingRequiredMsg (mr : List String) : String :=
  "Missing required propert" ++ (if mr.length = 1 then "y" else "ies") ++ ": "
    ++ String.intercalate ", " mr

/-- The object fields of a definition value (used by the object branch,
whose definition is known to classify as an object). -/
def objFieldsOf (H : DefHeap) (resHeap : List Node) (v : Val) : List (String × Val) :=
  match v with
  | .dref i =>
    match H.get? i with
    | some (.objN fs) => fs
    | _ => []
  | .rref i =>
    match resHeap.get? i with
    | some (.objN fs) => fs
    | _ => []
  | .prim _ => []

/-- The array elements of a definition value. -/
def arrElemsOf (H : DefHeap) (resHeap : List Node) (v : Val) : List Val :=
  match v with
  | .dref i =>
    match H.get? i with
    | some (.arrN es) => es
    | _ => []
  | .rref i =>
    match resHeap.get? i with
    | some (.arrN es) => es
    | _ => []
  | .prim _ => []

/-- The object branch of `normalize` (lines 92-192), returning nothing;
all its effects are on the result container and the exception collector.
The `additionalProperties` member read cannot throw here: a
`null`/`undefined` validator has already thrown at the enum read. -/
def objectBranch (norm : Ctx → NM Val) (H : DefHeap) (data : Ctx) (validator : Validator) :
    NM Unit := do
  let fields ← (fun s => some (.ok (objFieldsOf H s.resHeap data.definition), s) :
    NM (List (String × Val)))
  let namr ←
    (match validator with
    | .vTrue => do
      let c ← copyValF H (H.length + 1) [] data.definition
      objAssign data.result c.1
      pure ([], [])
    | .vFalse => pure (fields.map (fun p => p.1), [])
    | v =>
      match v.apOf with
      | some ap =>
        if ap.truthy then do
          let na ← addPropsLoop norm H data ap (fields.map (fun p => p.1)) []
          pure (na, [])
        else do
          let unknown ← splitExtensions data fields
          let dec ← decorateProps H data v.propsOf unknown
          let sorted := sortProperties dec.1
          let acc ← propsLoop norm H data.result sorted [] []
          pure (acc.1 ++ dec.2, acc.2)
      | none => do
        let unknown ← splitExtensions data fields
        let dec ← decorateProps H data v.propsOf unknown
        let sorted := sortProperties dec.1
        let acc ← propsLoop norm H data.result sorted [] []
        pure (acc.1 ++ dec.2, acc.2) : NM (List String × List String))
  (if namr.1 ≠ [] then pushExc data.path (notAllowedMsg namr.1) else pure ())
  (if namr.2 ≠ [] then pushExc data.path (missingRequiredMsg namr.2) else pure ())

/-- The tail of the `normalize` body after the circular-reference update:
the enum check, the dispatch on the definition type and the `errors`
member run. -/
def normalizeDispatch (norm : Ctx → NM Val) (H : DefHeap) (ctx : Ctx)
    (validator : Validator) : NM Val := do
  enumStep validator ctx
  let dataResult ←
    (match ctx.definitionType with
    | .tArray => do
      let es ← (fun s => some (.ok (arrElemsOf H s.resHeap ctx.definition), s) :
        NM (List Val))
      arrayLoop norm H ctx validator.itemsOf 0 es
      pure ctx.result
    | .tObject => do
      objectBranch norm H ctx validator
      pure ctx.result
    | .tBoolean => pure ctx.definition
    | .tNumber => pure ctx.definition
    | .tString => pure ctx.definition
    | _ => do
      pushExc ctx.path "Unknown data type provided"
      pure ctx.result : NM Val)
  (match validator.errorsOf with
    | some f => runErrorsCb f (ctxView { ctx with definition := dataResult, result := dataResult })
    | none => pure ())
  pure dataResult

/-- The part of the `normalize` body after the circular-reference lookup
(the `map.set`, then the dispatch tail). -/
def normalizeAfterGuard (norm : Ctx → NM Val) (H : DefHeap) (ctx : Ctx)
    (validator : Validator) : NM Val := do
  (if ctx.definition.isObjectVal then mapSetOp ctx.definition ctx.result else pure ())
  normalizeDispatch norm H ctx validator

/-- The body of `normalize` (the `try` block, lines 62-212, plus the
final `return data.result`): resolve the validator, type-check against
the unresolved validator member, consult and update the circular-reference
map, check the enum, dispatch on the definition type, and run the
validator's `errors` member against the materialized result. -/
def normalizeBody (norm : Ctx → NM Val) (H : DefHeap) (ctx : Ctx) : NM Val := do
  let vO ← runFnValidator ctx.validator (ctxView ctx)
  let validator := vO.getD .vNull
  let tOk ← validateTypeF ctx
  if tOk = false then pure (.prim .pundef)
  else do
    let hit ← (if ctx.definition.isObjectVal then mapGetOp ctx.definition else pure none)
    match hit with
    | some existing =>
      if jsTruthy existing then pure existing
      else normalizeAfterGuard norm H ctx validator
    | none => normalizeAfterGuard norm H ctx validator

/-- `normalize(data)`: the body wrapped in the `try`/`catch` of lines
62-216.  A thrown error is recorded as an unexpected-error message at the
current path and `data.result` is returned; the only mutation of
`data.result` (the scalar branch) cannot be followed by a throw, so the
caught-path return value is the context's original result. -/
def normalizeF (H : DefHeap) : Nat → Ctx → NM Val
  | 0 => fun _ => fuelOut
  | fuel + 1 => fun ctx =>
    nmCatch (normalizeBody (normalizeF H fuel) H ctx)
      (fun e => do
        pushExc ctx.path (unexpectedMsg e)
        pure ctx.result)

/-- `runChildValidator` at a given fuel. -/
def runCVF (H : DefHeap) (fuel : Nat) : Ctx → NM Val :=
  runChildValidatorF (normalizeF H fuel) H

end NormalizerWalk

section SpecSideDefinitions

/-- The strict order the spec prescribes for property evaluation:
ascending by weight, ties in weight resolved by ascending key. -/
def propOrder (a b : Ctx × Int) : Prop :=
  a.2 < b.2 ∨ (a.2 = b.2 ∧ keyLt a.1.key b.1.key = true)

/-- The node a raw-definition value refers to (result references refer
to no raw node). -/
def rawNodeOf (H : DefHeap) : Val → Option Node
  | .dref i => H.get? i
  | _ => none

/-- Member-wise (deep, structural) equality of two definition values,
following the words of the spec: equal primitives, or arrays of pairwise
member-wise equal elements, or objects with equal key lists and
member-wise equal member values.  Fuel-bounded (`|H| + 1` suffices on
acyclic values); written from the spec claim, not from the source, which
compares with `includes` (SameValueZero). -/
def memberwiseEq (H : DefHeap) : Nat → Val → Val → Bool
  | 0, _, _ => false
  | fuel + 1, a, b =>
    match a, b with
    | .prim p, .prim q => p = q
    | x, y =>
      match rawNodeOf H x, rawNodeOf H y with
      | some (.arrN es), some (.arrN fs) =>
        es.length = fs.length
          && (es.zip fs).all (fun p => memberwiseEq H fuel p.1 p.2)
      | some (.objN es), some (.objN fs) =>
        es.map Prod.fst = fs.map Prod.fst
          && (es.zip fs).all (fun p => memberwiseEq H fuel p.1.2 p.2.2)
      | _, _ => false

end SpecSideDefinitions

section TerminationPredicates

/-- Whether a value avoids the result heap (raw definitions do). -/
def Val.noRes : Val → Bool
  | .rref _ => false
  | _ => true

/-- Whether a value is a primitive. -/
def Val.isPrimV : Val → Bool
  | .prim _ => true
  | _ => false

/-- A raw-definition heap is good when every value it contains stays on
the raw side (a raw definition cannot reference the result heap). -/
def GoodHeap (H : DefHeap) : Prop :=
  ∀ n ∈ H, (match n with
    | Node.arrN es => ∀ v ∈ es, v.noRes = true
    | Node.objN fs => ∀ p ∈ fs, (p : String × Val).2.noRes = true)

/-- A good `default` member: the synthesized value is always a primitive
(the source validators only ever default to primitives). -/
def GoodDefaultFld (fld : FieldV Val) : Prop :=
  match fld with
  | .lit v => v.isPrimV = true
  | .cb f => ∀ c s msgs v, f c s = (msgs, Except.ok v) → v.isPrimV = true

/-- Good validators: every validator reachable through members, inline
configs and callback results is good, and `default` members synthesize
primitives. -/
inductive GoodV : Validator → Prop where
  | vTrue : GoodV .vTrue
  | vFalse : GoodV .vFalse
  | vNull : GoodV .vNull
  | vFn (f : CbCtx → St → Msgs × Except String Validator)
      (h : ∀ c s msgs v, f c s = (msgs, Except.ok v) → GoodV v) : GoodV (.vFn f)
  | eref (name : String) (config : Option Validator)
      (h : ∀ v, config = some v → GoodV v) : GoodV (.eref name config)
  | desc (t : Option (FieldV TypeV)) (e : Option (FieldV (List Val)))
      (it ap : Option Validator) (ps : Option (List (String × Validator)))
      (al rq ig : Option (FieldV Bool)) (df : Option (FieldV Val))
      (er : Option (CbCtx → St → Msgs × Except String Unit)) (w : Option Int)
      (hit : ∀ v, it = some v → GoodV v)
      (hap : ∀ v, ap = some v → GoodV v)
      (hps : ∀ l k v, ps = some l → (k, v) ∈ l → GoodV v)
      (hdf : ∀ fld, df = some fld → GoodDefaultFld fld) :
      GoodV (.desc t e it ap ps al rq ig df er w)

/-- A good component table. -/
def GoodTable (t : List (String × Validator)) : Prop :=
  ∀ p ∈ t, GoodV (p : String × Validator).2

/-- A good walk context: good validator and table, a raw (non-result)
definition whose recorded type is consistent, and a truthy result
container whenever the definition is an object. -/
def GoodCtx (H : DefHeap) (c : Ctx) : Prop :=
  GoodV c.validator ∧ GoodTable c.context ∧ c.definition.noRes = true
    ∧ c.definitionType = getDefinitionType H [] c.definition
    ∧ (c.definition.isObjectVal = true → jsTruthy c.result = true)

/-- Truthy-valued circular-reference map (every value the walker stores
is a result container or a raw object, both truthy). -/
def StWF (s : St) : Prop := ∀ p ∈ s.map, jsTruthy (p : Val × Val).2 = true

/-- Key-set inclusion of circular-reference maps. -/
def subKeys (m m' : List (Val × Val)) : Prop :=
  ∀ k, (valMapLookup m k).isSome = true → (valMapLookup m' k).isSome = true

/-- The number of raw heap nodes not yet in the circular-reference map:
the fuel the walker can still consume on fresh object definitions. -/
def uncachedCount (H : DefHeap) (m : List (Val × Val)) : Nat :=
  ((List.range H.length).filter (fun i => !(valMapLookup m (.dref i)).isSome)).length

end TerminationPredicates

section ConcreteInstances

/-- An initial walk state with one preallocated empty object container. -/
def stInit : St := { resHeap := [.objN []], map := [], exc := [] }

/-- A Schema-like validator: an object with a single `self` property that
is an `EnforcerRef` back to the component itself. -/
def schemaLikeValidator : Validator :=
  .desc (some (.lit (.single "object"))) none none none
    (some [("self", .eref "Schema" none)]) none none none none none none

/-- The component table binding `Schema` to the Schema-like validator. -/
def cycTable : List (String × Validator) := [("Schema", schemaLikeValidator)]

/-- The cyclic raw definition `A = \x7b self: A \x7d`. -/
def cycHeap : DefHeap := [.objN [("self", .dref 0)]]

/-- The root context of the cyclic walk. -/
def cycCtx : Ctx :=
  { definition := .dref 0
    definitionType := .tObject
    validator := .eref "Schema" none
    key := none
    path := []
    warnPath := []
    result := .rref 0
    major := 3
    minor := 0
    patch := 0
    context := cycTable
    parentView := none
    rootView := none }

/-- The same root context with the component validator already in force. -/
def cycCtxTop : Ctx := { cycCtx with validator := schemaLikeValidator }

/-- A heap holding two distinct but structurally equal empty objects. -/
def twoEmptyHeap : DefHeap := [.objN [], .objN []]

/-- A validator whose `enum` lists the second empty object. -/
def enumObjValidator : Validator :=
  .desc none (some (.lit [.dref 1])) none none none none none none none none none

/-- The walk context of the first empty object under that validator. -/
def enumObjCtx : Ctx :=
  { definition := .dref 0
    definitionType := .tObject
    validator := enumObjValidator
    key := none
    path := []
    warnPath := []
    result := .rref 0
    major := 3
    minor := 0
    patch := 0
    context := []
    parentView := none
    rootView := none }

/-- A heap holding one nonempty object. -/
def oneObjHeap : DefHeap := [.objN [("a", .prim (.pnum 1))]]

/-- A child context over that object whose validator is falsy (`undefined`),
with the preallocated empty result container `childData` creates. -/
def falsyChildCtx : Ctx :=
  { definition := .dref 0
    definitionType := .tObject
    validator := .vNull
    key := some (.kstr "value")
    path := [.kstr "value"]
    warnPath := [.kstr "value"]
    result := .rref 0
    major := 2
    minor := 0
    patch := 0
    context := []
    parentView := none
    rootView := none }

/-- A scalar child context whose validator is falsy. -/
def scalarFalsyCtx : Ctx :=
  { definition := .prim (.pstr "v")
    definitionType := .tString
    validator := .vNull
    key := some (.kstr "value")
    path := [.kstr "value"]
    warnPath := [.kstr "value"]
    result := .prim (.pstr "v")
    major := 2
    minor := 0
    patch := 0
    context := []
    parentView := none
    rootView := none }

/-- A context whose validator member is `null` (member access throws). -/
def nullValidatorCtx : Ctx :=
  { definition := .prim (.pstr "x")
    definitionType := .tString
    validator := .vNull
    key := none
    path := [.kstr "p"]
    warnPath := [.kstr "p"]
    result := .prim (.pstr "x")
    major := 2
    minor := 0
    patch := 0
    context := []
    parentView := none
    rootView := none }

/-- A context for a scalar string under an enum validator. -/
def mkScalarEnumCtx (p : Prim) (vals : List Val) : Ctx :=
  { definition := .prim p
    definitionType := getDefinitionType [] [] (.prim p)
    validator := .desc none (some (.lit vals)) none none none none none none none none none
    key := none
    path := []
    warnPath := []
    result := .prim p
    major := 3
    minor := 0
    patch := 0
    context := []
    parentView := none
    rootView := none }

/-- A minimal context carrying only a property key (sorting reads the key
and the weight). -/
def keyOnlyCtx (k : String) : Ctx :=
  { definition := .prim .pundef
    definitionType := .tUndefined
    validator := emptyDesc
    key := some (.kstr k)
    path := [.kstr k]
    warnPath := [.kstr k]
    result := .prim .pundef
    major := 3
    minor := 0
    patch := 0
    context := []
    parentView := none
    rootView := none }

/-- A decorated property list mirroring the Schema meta-validator weights
`type` (-10), `format` (-9), `maximum` (-8), plus two weight-0 keys. -/
def demoProps : List (Ctx × Int) :=
  [(keyOnlyCtx "title", 0), (keyOnlyCtx "maximum", -8), (keyOnlyCtx "format", -9),
   (keyOnlyCtx "pattern", 0), (keyOnlyCtx "type", -10)]

/-- A schema result carrying both `allOf` and `oneOf`. -/
def allOfOneOfResult : SchemaResult :=
  { emptySchemaResult with allOf := true, oneOf := true }

/-- A schema result with equal bounds and an exclusive flag set. -/
def exclusiveEqualBounds : SchemaResult :=
  { emptySchemaResult with minimum := some 3, maximum := some 3, exclusiveMinimum := some true }

/-- A v3 schema node with no discriminator. -/
def noDiscSchema : DiscSchema :=
  { major := 3
    discriminator := none
    rootDefinitions := none
    rootComponents := some (some [("Dog", 7)]) }

/-- A walk context that re-encounters the already-cached cyclic
definition under a plain empty descriptor. -/
def cacheHitCtx : Ctx := { cycCtx with validator := emptyDesc }

/-- A state in which the cyclic definition already has a cached result. -/
def cacheHitSt : St :=
  { resHeap := [.objN []], map := [(.dref 0, .rref 0)], exc := [] }

end ConcreteInstances

section CompositionPredicates

/-!
Hoare-style predicates over the normalization monad, used to prove that
the walker terminates: `NTot` for steps that always answer and leave the
circular-reference map untouched, `NGoodP` for steps that always answer
while preserving well-formedness of the map and only growing its key set,
and `NormOK` for a recursive normalizer that is safe on every good
context, every well-formed state and every state whose uncached-node
count is below the given bound.
-/

/-- A total, map-preserving monadic step whose successful results
satisfy `P`. -/
def NTot {α : Type} (m : NM α) (P : α → Prop) : Prop :=
  ∀ s, ∃ r s', m s = some (r, s') ∧ s'.map = s.map ∧ ∀ a, r = Except.ok a → P a

/-- A total monadic step preserving map well-formedness, only growing the
key set, available on states with fewer than `b` uncached nodes, and
whose successful results satisfy `P`. -/
def NGoodP {α : Type} (H : DefHeap) (b : Nat) (m : NM α) (P : α → Prop) : Prop :=
  ∀ s, StWF s → uncachedCount H s.map < b →
    ∃ r s', m s = some (r, s') ∧ StWF s' ∧ subKeys s.map s'.map
      ∧ ∀ a, r = Except.ok a → P a

/-- A recursive normalizer that is safe at bound `b` on good contexts. -/
def NormOK (H : DefHeap) (b : Nat) (norm : Ctx → NM Val) : Prop :=
  ∀ c, GoodCtx H c → NGoodP H b (norm c) (fun _ => True)

end CompositionPredicates

-- ===================================================================
-- Theorems
-- ===================================================================

/-- Dropping a prefix never lengthens a list. -/
theorem lengthDropWhileLe (p : Char → Bool) (l : List Char) :
    (l.dropWhile p).length ≤ l.length := by
  induction l with
  | nil => simp
  | cons c cs ih =>
    rw [List.dropWhile_cons]
    by_cases h : p c
    · simp only [h, if_true, List.length_cons]; omega
    · simp [h]

/-- Rendering a segment list distributes over cons. -/
theorem renderSegs_cons (params : List (String × String)) (x : Seg) (l : List Seg) :
    renderSegs params (x :: l) = renderSeg params x ++ renderSegs params l := rfl

/-- Joining a segment list distributes over cons. -/
theorem joinSegs_cons (x : Seg) (l : List Seg) :
    joinSegs (x :: l) = (match x with
      | .lit c => String.singleton c
      | .ref _ matched => matched) ++ joinSegs l := rfl

/-- The injector loop renders the segments of the scan: substitution is a
function of the scan of the original string alone. -/
theorem injectLoop_eq_renderScan (m : Matcher) (params : List (String × String)) :
    ∀ fuel cs, injectLoop m params fuel cs = renderSegs params (scanLoop m fuel cs) := by
  intro fuel
  induction fuel with
  | zero => intro cs; rfl
  | succ f ih =>
    intro cs
    cases cs with
    | nil => rfl
    | cons c rest =>
      show injectLoop m params (f + 1) (c :: rest)
        = renderSegs params (scanLoop m (f + 1) (c :: rest))
      rw [injectLoop, scanLoop]
      cases h : m (c :: rest) with
      | none => simp only [renderSegs_cons, renderSeg, ih]
      | some nmr =>
        obtain ⟨name, matched, r⟩ := nmr
        simp only [renderSegs_cons, renderSeg, ih]

/-- Consumption property of a matcher: a match reproduces the input as
matched text plus rest, and consumes at least one character. -/
def MatcherConsumes (m : Matcher) : Prop :=
  ∀ cs name matched r, m cs = some (name, matched, r) →
    matched.data ++ r = cs ∧ r.length < cs.length

/-- `colonMatch` consumes its match. -/
theorem colonMatch_consumes : MatcherConsumes colonMatch := by
  intro cs name matched r h
  cases cs with
  | nil => simp [colonMatch] at h
  | cons c0 tail =>
    cases tail with
    | nil => simp [colonMatch] at h
    | cons c rest =>
      simp only [colonMatch] at h
      split at h
      · simp only [Option.some.injEq, Prod.mk.injEq] at h
        obtain ⟨h1, h2, h3⟩ := h
        subst h1; subst h2; subst h3
        refine ⟨?_, ?_⟩
        · show (c0 :: c :: rest.takeWhile identChar) ++ rest.dropWhile identChar
            = c0 :: c :: rest
          simp [List.takeWhile_append_dropWhile]
        · have hd := lengthDropWhileLe identChar rest
          simp only [List.length_cons]
          omega
      · exact absurd h (by simp)

/-- `handlebarMatch` consumes its match. -/
theorem handlebarMatch_consumes : MatcherConsumes handlebarMatch := by
  intro cs name matched r h
  cases cs with
  | nil => simp [handlebarMatch] at h
  | cons c0 tail =>
    cases tail with
    | nil => simp [handlebarMatch] at h
    | cons c rest =>
      simp only [handlebarMatch] at h
      split at h
      case isTrue hc =>
        have hc2 := hc
        simp only [Bool.and_eq_true] at hc2
        have hb' : c0 = lbrace := of_decide_eq_true hc2.1
        cases hdw : rest.dropWhile identChar with
        | nil => rw [hdw] at h; simp at h
        | cons b2 rest2 =>
          rw [hdw] at h
          simp only at h
          split at h
          case isTrue hb2 =>
            simp only [Option.some.injEq, Prod.mk.injEq] at h
            obtain ⟨h1, h2, h3⟩ := h
            subst h1; subst h2; subst h3
            have hsplit := List.takeWhile_append_dropWhile (p := identChar) (l := rest)
            refine ⟨?_, ?_⟩
            · show (lbrace :: c :: (rest.takeWhile identChar ++ [rbrace])) ++ rest2
                = c0 :: c :: rest
              subst hb'
              have h4 : (rest.takeWhile identChar ++ [rbrace]) ++ rest2
                  = rest.takeWhile identChar ++ (rbrace :: rest2) := by simp
              simp only [List.cons_append, h4]
              rw [← hb2, ← hdw, hsplit]
            · have hd := lengthDropWhileLe identChar rest
              have h5 : (b2 :: rest2).length = (rest.dropWhile identChar).length := by
                rw [hdw]
              simp only [List.length_cons] at h5 ⊢
              omega
          case isFalse => simp at h
      case isFalse => simp at h

/-- `doubleHandlebarMatch` consumes its match. -/
theorem doubleHandlebarMatch_consumes : MatcherConsumes doubleHandlebarMatch := by
  intro cs name matched r h
  cases cs with
  | nil => simp [doubleHandlebarMatch] at h
  | cons c0 tail0 =>
    cases tail0 with
    | nil => simp [doubleHandlebarMatch] at h
    | cons c1 tail1 =>
      cases tail1 with
      | nil => simp [doubleHandlebarMatch] at h
      | cons c rest =>
        simp only [doubleHandlebarMatch] at h
        split at h
        case isTrue hc =>
          have hc2 := hc
          simp only [Bool.and_eq_true] at hc2
          have hb0' : c0 = lbrace := of_decide_eq_true hc2.1.1
          have hb1' : c1 = lbrace := of_decide_eq_true hc2.1.2
          cases hdw : rest.dropWhile identChar with
          | nil => rw [hdw] at h; simp at h
          | cons b2 tail2 =>
            cases tail2 with
            | nil => rw [hdw] at h; simp at h
            | cons b3 rest2 =>
              rw [hdw] at h
              simp only at h
              split at h
              case isTrue hb2 =>
                have hb2' := hb2
                simp only [Bool.and_eq_true] at hb2'
                have hr2' : b2 = rbrace := of_decide_eq_true hb2'.1
                have hr3' : b3 = rbrace := of_decide_eq_true hb2'.2
                simp only [Option.some.injEq, Prod.mk.injEq] at h
                obtain ⟨h1, h2, h3⟩ := h
                subst h1; subst h2; subst h3
                have hsplit := List.takeWhile_append_dropWhile (p := identChar) (l := rest)
                refine ⟨?_, ?_⟩
                · show (lbrace :: lbrace :: c :: (rest.takeWhile identChar ++ [rbrace, rbrace]))
                      ++ rest2 = c0 :: c1 :: c :: rest
                  subst hb0'; subst hb1'
                  have h4 : (rest.takeWhile identChar ++ [rbrace, rbrace]) ++ rest2
                      = rest.takeWhile identChar ++ (rbrace :: rbrace :: rest2) := by simp
                  simp only [List.cons_append, h4]
                  subst hr2'
                  subst hr3'
                  rw [← hdw, hsplit]
                · have hd := lengthDropWhileLe identChar rest
                  have h5 : (b2 :: b3 :: rest2).length = (rest.dropWhile identChar).length := by
                    rw [hdw]
                  simp only [List.length_cons] at h5 ⊢
                  omega
              case isFalse => simp at h
        case isFalse => simp at h

/-- With enough fuel, the scan reconstructs the original string: the
decomposition is a partition of the input, read once, left to right. -/
theorem joinSegs_scanLoop (m : Matcher) (hm : MatcherConsumes m) :
    ∀ fuel cs, cs.length < fuel → joinSegs (scanLoop m fuel cs) = String.mk cs := by
  intro fuel
  induction fuel with
  | zero => intro cs h; omega
  | succ f ih =>
    intro cs hlt
    cases cs with
    | nil => rfl
    | cons c rest =>
      rw [scanLoop]
      cases h : m (c :: rest) with
      | none =>
        have hr : joinSegs (Seg.lit c :: scanLoop m f rest) =
            String.singleton c ++ joinSegs (scanLoop m f rest) := joinSegs_cons _ _
        have hlen : rest.length < f := by
          simp only [List.length_cons] at hlt; omega
        rw [hr, ih rest hlen]
        apply String.ext
        simp [String.singleton]
      | some nmr =>
        obtain ⟨name, matched, r⟩ := nmr
        obtain ⟨hsplit, hcons⟩ := hm _ _ _ _ h
        have hr : joinSegs (Seg.ref name matched :: scanLoop m f r) =
            matched ++ joinSegs (scanLoop m f r) := joinSegs_cons _ _
        have hlen : r.length < f := by
          simp only [List.length_cons] at hlt hcons; omega
        rw [hr, ih r hlen]
        apply String.ext
        show (matched ++ String.mk r).data = c :: rest
        rw [String.data_append, show (String.mk r).data = r from rfl, hsplit]

/-- C7.  Each of the three injectors is the rendering of a single
left-to-right scan of the original template string: each parameter
reference whose name is defined in the map is replaced by the map value,
unresolved references are kept verbatim, and the scan (hence the set of
replaced references) is computed from the original string only, so
substituted text is never re-scanned; the segment decompositions
reconstruct the input exactly.  The final two equations exercise this
concretely: a substituted value containing a reference pattern is not
expanded again, and unresolved references stay verbatim. -/
theorem injector_single_pass_replaces_defined_refs :
    (∀ params s, colonInjector params s = renderSegs params (scanSegs colonMatch s))
    ∧ (∀ params s, handlebarInjector params s = renderSegs params (scanSegs handlebarMatch s))
    ∧ (∀ params s, doubleHandlebarInjector params s
        = renderSegs params (scanSegs doubleHandlebarMatch s))
    ∧ (∀ s, joinSegs (scanSegs colonMatch s) = s)
    ∧ (∀ s, joinSegs (scanSegs handlebarMatch s) = s)
    ∧ (∀ s, joinSegs (scanSegs doubleHandlebarMatch s) = s)
    ∧ handlebarInjector [("a", "\x7bb\x7d"), ("b", "X")] "\x7ba\x7d" = "\x7bb\x7d"
    ∧ colonInjector [("name", "Ada")] ":name and :missing" = "Ada and :missing" := by
  refine ⟨?_, ?_, ?_, ?_, ?_, ?_, ?_, ?_⟩
  · intro params s; exact injectLoop_eq_renderScan colonMatch params _ _
  · intro params s; exact injectLoop_eq_renderScan handlebarMatch params _ _
  · intro params s; exact injectLoop_eq_renderScan doubleHandlebarMatch params _ _
  · intro s
    exact joinSegs_scanLoop colonMatch colonMatch_consumes (s.length + 1) s.data
      (Nat.lt_succ_self _)
  · intro s
    exact joinSegs_scanLoop handlebarMatch handlebarMatch_consumes (s.length + 1) s.data
      (Nat.lt_succ_self _)
  · intro s
    exact joinSegs_scanLoop doubleHandlebarMatch doubleHandlebarMatch_consumes (s.length + 1)
      s.data (Nat.lt_succ_self _)
  · decide
  · decide

/-- A filter for one message kind ignores a conditional chunk of another kind. -/
theorem filterMap_ite_none {α : Type} (f : SchemaMsg → Option α) (c : Prop) [Decidable c]
    (m : SchemaMsg) (h : f m = none) :
    List.filterMap f (if c then [] else [m]) = [] := by
  split <;> simp [h]

/-- A filter for one message kind ignores the read-write conflict chunk. -/
theorem filterMap_rwChunk_none {α : Type} (f : SchemaMsg → Option α)
    (h : ∀ k, f (.readWriteConflict k) = none) (l : List (String × Bool × Bool)) :
    List.filterMap f
      (l.filterMap (fun p => if p.2.1 && p.2.2 then some (.readWriteConflict p.1) else none))
      = [] := by
  induction l with
  | nil => rfl
  | cons p rest ih =>
    rw [List.filterMap_cons]
    split
    · exact ih
    · next heq =>
      rename_i v
      have : v = SchemaMsg.readWriteConflict p.1 := by
        by_cases hc : (p.2.1 && p.2.2) = true
        · rw [if_pos hc] at heq; exact (Option.some.injEq _ _).mp heq.symm |>.symm ▸ rfl
        · rw [if_neg hc] at heq; cases heq
      rw [List.filterMap_cons, this, h]
      exact ih

/-- A filter for one message kind ignores the required-count chunk. -/
theorem filterMap_reqChunk_none {α : Type} (f : SchemaMsg → Option α)
    (h : f .tooManyRequired = none) (req : Option (List String)) (mp : Option Int) :
    List.filterMap f
      (match req, mp with
        | some req, some mp => if (req.length : Int) > mp then [SchemaMsg.tooManyRequired] else []
        | _, _ => []) = [] := by
  match req, mp with
  | none, none => rfl
  | none, some _ => rfl
  | some _, none => rfl
  | some req, some mp =>
    simp only []
    split <;> simp [h]

/-- C8.  The Schema cross-field `errors` callback attaches the
multiple-composites message exactly when more than one of `allOf`,
`anyOf`, `oneOf`, `not` is present on the materialized result, and its
payload is always the list of present composites in that fixed order;
the exact text is the source string, and a result with both `allOf` and
`oneOf` yields exactly "Cannot have multiple composites: allOf, oneOf". -/
theorem schema_multiple_composites_message :
    (∀ r : SchemaResult,
      (schemaErrors r).filterMap compositeNamesOf
        = (if 1 < (presentComposites r).length then [presentComposites r] else []))
    ∧ (∀ names, renderSchemaMsg (.multipleComposites names)
        = "Cannot have multiple composites: " ++ String.intercalate ", " names)
    ∧ SchemaMsg.multipleComposites ["allOf", "oneOf"] ∈ schemaErrors allOfOneOfResult
    ∧ renderSchemaMsg (.multipleComposites ["allOf", "oneOf"])
        = "Cannot have multiple composites: allOf, oneOf" := by
  refine ⟨?_, ?_, ?_, ?_⟩
  · intro r
    unfold schemaErrors
    rw [List.filterMap_append, List.filterMap_append, List.filterMap_append,
      List.filterMap_append, List.filterMap_append, List.filterMap_append]
    have h6 : List.filterMap compositeNamesOf
        (match r.properties with
          | some ps => ps.filterMap
              (fun p => if p.2.1 && p.2.2 then some (.readWriteConflict p.1) else none)
          | none => []) = [] := by
      match hp : r.properties with
      | some ps => exact filterMap_rwChunk_none compositeNamesOf (fun _ => rfl) ps
      | none => rfl
    rw [filterMap_ite_none compositeNamesOf _ SchemaMsg.minMaxItems rfl,
      filterMap_ite_none compositeNamesOf _ SchemaMsg.minMaxLength rfl,
      filterMap_ite_none compositeNamesOf _ SchemaMsg.minMaxProps rfl,
      filterMap_ite_none compositeNamesOf _ (SchemaMsg.minBelowMax
        (!(truthyFlag r.exclusiveMinimum || truthyFlag r.exclusiveMaximum))) rfl,
      filterMap_reqChunk_none compositeNamesOf rfl, h6]
    simp only [List.nil_append]
    show List.filterMap compositeNamesOf
        (if (presentComposites r).length > 1
          then [SchemaMsg.multipleComposites (presentComposites r)] else [])
      = if 1 < (presentComposites r).length then [presentComposites r] else []
    by_cases hlen : 1 < (presentComposites r).length
    · simp [hlen, compositeNamesOf]
    · simp [hlen]
  · intro names; rfl
  · decide
  · rfl

/-- C9.  With both bounds present, `minMaxValid` accepts exactly strict
inequality, or equality with neither exclusive flag truthy; on rejection
the errors callback attaches exactly one minimum/maximum message whose
"or equal to " clause appears exactly when neither exclusive flag is
truthy. -/
theorem minimum_maximum_cross_check :
    ∀ (r : SchemaResult) (mn mx : Int), r.minimum = some mn → r.maximum = some mx →
      ((minMaxValid r.minimum r.maximum r.exclusiveMinimum r.exclusiveMaximum = true)
        ↔ (mn < mx ∨ (mn = mx ∧ truthyFlag r.exclusiveMinimum = false
            ∧ truthyFlag r.exclusiveMaximum = false)))
      ∧ ((schemaErrors r).filterMap minBelowMaxOf
          = if minMaxValid r.minimum r.maximum r.exclusiveMinimum r.exclusiveMaximum then []
            else [!(truthyFlag r.exclusiveMinimum || truthyFlag r.exclusiveMaximum)])
      ∧ (∀ orEqual : Bool, renderSchemaMsg (.minBelowMax orEqual)
          = "Property \"minimum\" must be less than "
            ++ (if orEqual then "or equal to " else "") ++ "\"maximum\"") := by
  intro r mn mx hmn hmx
  refine ⟨?_, ?_, ?_⟩
  · rw [hmn, hmx]
    simp only [minMaxValid, Bool.or_eq_true, decide_eq_true_eq, Bool.and_eq_true,
      Bool.not_eq_true]
    constructor
    · rintro (h | h)
      · exact Or.inl h
      · exact Or.inr ⟨h.2, h.1.1, h.1.2⟩
    · rintro (h | ⟨h1, h2, h3⟩)
      · exact Or.inl h
      · exact Or.inr ⟨⟨h2, h3⟩, h1⟩
  · unfold schemaErrors
    rw [List.filterMap_append, List.filterMap_append, List.filterMap_append,
      List.filterMap_append, List.filterMap_append, List.filterMap_append]
    have h6 : List.filterMap minBelowMaxOf
        (match r.properties with
          | some ps => ps.filterMap
              (fun p => if p.2.1 && p.2.2 then some (.readWriteConflict p.1) else none)
          | none => []) = [] := by
      match hp : r.properties with
      | some ps => exact filterMap_rwChunk_none minBelowMaxOf (fun _ => rfl) ps
      | none => rfl
    have h7 : List.filterMap minBelowMaxOf
        (let composites := presentComposites r
          if composites.length > 1 then [SchemaMsg.multipleComposites composites] else [])
        = [] := by
      simp only []
      split <;> simp [minBelowMaxOf]
    rw [filterMap_ite_none minBelowMaxOf _ SchemaMsg.minMaxItems rfl,
      filterMap_ite_none minBelowMaxOf _ SchemaMsg.minMaxLength rfl,
      filterMap_ite_none minBelowMaxOf _ SchemaMsg.minMaxProps rfl,
      filterMap_reqChunk_none minBelowMaxOf rfl, h6, h7]
    simp only [List.nil_append, List.append_nil]
    by_cases hv : minMaxValid r.minimum r.maximum r.exclusiveMinimum r.exclusiveMaximum = true
    · simp [hv]
    · simp [hv, minBelowMaxOf]
  · intro orEqual; rfl

/-- C9 witness: equal bounds with `exclusiveMinimum` set are rejected
with the strict-inequality message text. -/
theorem minimum_maximum_cross_check_witness :
    ((minMaxValid exclusiveEqualBounds.minimum exclusiveEqualBounds.maximum
        exclusiveEqualBounds.exclusiveMinimum exclusiveEqualBounds.exclusiveMaximum = true)
      ↔ ((3 : Int) < 3 ∨ ((3 : Int) = 3 ∧ truthyFlag exclusiveEqualBounds.exclusiveMinimum = false
          ∧ truthyFlag exclusiveEqualBounds.exclusiveMaximum = false)))
    ∧ ((schemaErrors exclusiveEqualBounds).filterMap minBelowMaxOf
        = if minMaxValid exclusiveEqualBounds.minimum exclusiveEqualBounds.maximum
            exclusiveEqualBounds.exclusiveMinimum exclusiveEqualBounds.exclusiveMaximum then []
          else [!(truthyFlag exclusiveEqualBounds.exclusiveMinimum
            || truthyFlag exclusiveEqualBounds.exclusiveMaximum)])
    ∧ (∀ orEqual : Bool, renderSchemaMsg (.minBelowMax orEqual)
        = "Property \"minimum\" must be less than "
          ++ (if orEqual then "or equal to " else "") ++ "\"maximum\"") :=
  minimum_maximum_cross_check exclusiveEqualBounds 3 3 rfl rfl

/-- C3.  Claim: a second registration of the same `(type, format)` pair
throws, and a fresh registration supplying the three handlers does not.
The source instead tests `dataTypes.hasOwnProperty(format)` (the
top-level type table): registering `("string", "fancy")` twice succeeds
both times, while a fresh `("string", "number")` registration throws. -/
theorem defineDataTypeFormat_duplicate_not_rejected :
    (defineDataTypeFormat "string" "fancy" (.objDef dtDefOk) initialStatics).isOk = true
    ∧ (defineDataTypeFormat "string" "fancy" (.objDef dtDefOk) stAfterFirst).isOk = true
    ∧ defineDataTypeFormat "string" "number" (.objDef dtDefOk) initialStatics
        = .error "Format \"number\" is already defined" := by
  refine ⟨by decide, by decide, by rfl⟩

/-- C10.  `discriminate` on a schema node that declares no discriminator
returns `undefined` for every value and details flag. -/
theorem discriminate_without_discriminator_returns_undefined :
    ∀ (sch : DiscSchema) (value : Option (List (String × String))) (details : Bool),
      sch.discriminator = none → discriminate sch value details = .undef := by
  intro sch value details h
  unfold discriminate
  rw [h]
  simp [discFalsy]

/-- C10 witness: a v3 schema without a discriminator, handed an object
value and `details = true`, yields `undefined`. -/
theorem discriminate_without_discriminator_witness :
    discriminate noDiscSchema (some [("kind", "dog")]) true = .undef :=
  discriminate_without_discriminator_returns_undefined noDiscSchema
    (some [("kind", "dog")]) true rfl

/-- An entry whose walk key is a property-name string. -/
def strKeyed (e : Ctx × Int) : Prop := ∃ k, e.1.key = some (Key.kstr k)

/-- `keyLt` is transitive. -/
theorem keyLt_trans {a b c : Option Key} (h1 : keyLt a b = true) (h2 : keyLt b c = true) :
    keyLt a c = true := by
  match a, b, c with
  | some (.kstr x), some (.kstr y), some (.kstr z) =>
    simp only [keyLt, decide_eq_true_eq] at h1 h2 ⊢
    exact lt_trans h1 h2
  | some (.kidx i), some (.kidx j), some (.kidx k) =>
    simp only [keyLt, decide_eq_true_eq] at h1 h2 ⊢
    omega
  | some (.kstr _), some (.kidx _), _ => simp [keyLt] at h1
  | some (.kidx _), some (.kstr _), _ => simp [keyLt] at h1
  | none, _, _ => simp [keyLt] at h1
  | some (.kstr _), some (.kstr _), some (.kidx _) => simp [keyLt] at h2
  | some (.kstr _), some (.kstr _), none => simp [keyLt] at h2
  | some (.kidx _), some (.kidx _), some (.kstr _) => simp [keyLt] at h2
  | some (.kidx _), some (.kidx _), none => simp [keyLt] at h2

/-- The spec order is transitive. -/
theorem propOrder_trans {a b c : Ctx × Int} (h1 : propOrder a b) (h2 : propOrder b c) :
    propOrder a c := by
  rcases h1 with h1 | ⟨h1w, h1k⟩
  · rcases h2 with h2 | ⟨h2w, _⟩
    · exact Or.inl (lt_trans h1 h2)
    · exact Or.inl (h2w ▸ h1)
  · rcases h2 with h2 | ⟨h2w, h2k⟩
    · exact Or.inl (h1w ▸ h2)
    · exact Or.inr ⟨h1w.trans h2w, keyLt_trans h1k h2k⟩

/-- Distinct string keys make the spec order total. -/
theorem propOrder_total (x y : Ctx × Int) (hx : strKeyed x) (hy : strKeyed y)
    (hne : x.1.key ≠ y.1.key) : propOrder x y ∨ propOrder y x := by
  obtain ⟨kx, hkx⟩ := hx
  obtain ⟨ky, hky⟩ := hy
  rcases lt_trichotomy x.2 y.2 with hw | hw | hw
  · exact Or.inl (Or.inl hw)
  · rcases lt_trichotomy kx ky with hk | hk | hk
    · refine Or.inl (Or.inr ⟨hw, ?_⟩)
      rw [hkx, hky]
      simp only [keyLt, decide_eq_true_eq]
      exact hk
    · exact absurd (by rw [hkx, hky, hk]) hne
    · refine Or.inr (Or.inr ⟨hw.symm, ?_⟩)
      rw [hkx, hky]
      simp only [keyLt, decide_eq_true_eq]
      exact hk
  · exact Or.inr (Or.inl hw)

/-- For entries with distinct string keys, a non-positive comparator value
is exactly the spec order. -/
theorem jsComparator_le_iff (x y : Ctx × Int) (hx : strKeyed x) (hy : strKeyed y)
    (hne : x.1.key ≠ y.1.key) : jsComparator x y ≤ 0 ↔ propOrder x y := by
  obtain ⟨kx, hkx⟩ := hx
  obtain ⟨ky, hky⟩ := hy
  unfold jsComparator
  constructor
  · intro h
    by_cases h1 : x.2 < y.2
    · exact Or.inl h1
    · rw [if_neg h1] at h
      by_cases h2 : x.2 > y.2
      · rw [if_pos h2] at h; omega
      · rw [if_neg h2] at h
        by_cases h3 : keyLt x.1.key y.1.key = true
        · exact Or.inr ⟨by omega, h3⟩
        · rw [if_neg h3] at h; omega
  · intro h
    rcases h with h | ⟨hw, hk⟩
    · rw [if_pos h]; omega
    · rw [if_neg (by omega), if_neg (by omega), if_pos hk]; omega

/-- The insertion step permutes. -/
theorem sortInsert_perm (x : Ctx × Int) (l : List (Ctx × Int)) :
    (sortInsert x l).Perm (x :: l) := by
  induction l with
  | nil => simp [sortInsert]
  | cons y ys ih =>
    rw [sortInsert]
    split
    · exact List.Perm.refl _
    · exact (ih.cons y).trans (List.Perm.swap x y ys)

/-- The sort of the decorated property list permutes its input. -/
theorem sortProperties_perm (l : List (Ctx × Int)) : (sortProperties l).Perm l := by
  induction l with
  | nil => exact List.Perm.refl _
  | cons x xs ih =>
    have h1 : sortProperties (x :: xs) = sortInsert x (sortProperties xs) := rfl
    rw [h1]
    exact (sortInsert_perm x (sortProperties xs)).trans (ih.cons x)

/-- Membership in an insertion. -/
theorem mem_sortInsert {z x : Ctx × Int} {l : List (Ctx × Int)}
    (h : z ∈ sortInsert x l) : z = x ∨ z ∈ l := by
  have := (sortInsert_perm x l).mem_iff.mp h
  simpa using this

/-- Inserting an entry with a fresh string key preserves sortedness. -/
theorem sortInsert_pairwise (x : Ctx × Int) (l : List (Ctx × Int))
    (hx : strKeyed x) (hl : ∀ e ∈ l, strKeyed e)
    (hnd : ∀ e ∈ l, x.1.key ≠ e.1.key)
    (hs : l.Pairwise propOrder) :
    (sortInsert x l).Pairwise propOrder := by
  induction l with
  | nil => simp [sortInsert]
  | cons y ys ih =>
    have hy : strKeyed y := hl y (by simp)
    have hney : x.1.key ≠ y.1.key := hnd y (by simp)
    rw [sortInsert]
    split
    · next hle =>
      have hxy : propOrder x y := (jsComparator_le_iff x y hx hy hney).mp hle
      rw [List.pairwise_cons]
      refine ⟨?_, hs⟩
      intro z hz
      rcases List.mem_cons.mp hz with rfl | hz
      · exact hxy
      · exact propOrder_trans hxy ((List.pairwise_cons.mp hs).1 z hz)
    · next hgt =>
      have hnxy : ¬ propOrder x y := fun hp =>
        hgt ((jsComparator_le_iff x y hx hy hney).mpr hp)
      have hyx : propOrder y x := by
        rcases propOrder_total x y hx hy hney with h | h
        · exact absurd h hnxy
        · exact h
      rw [List.pairwise_cons]
      constructor
      · intro z hz
        rcases mem_sortInsert hz with rfl | hz
        · exact hyx
        · exact (List.pairwise_cons.mp hs).1 z hz
      · exact ih (fun e he => hl e (by simp [he])) (fun e he => hnd e (by simp [he]))
          (List.pairwise_cons.mp hs).2

/-- C5.  The decorated property list is processed in the order produced by
`sortProperties`, which is a permutation of the declared properties that
is sorted ascending by weight (absent weights count as 0 by `weightOf`),
with ties in weight broken by ascending key name; the order is a function
of the entries alone, hence identical across runs on equal input. -/
theorem properties_sorted_by_weight_then_key :
    ∀ l : List (Ctx × Int),
      (∀ e ∈ l, ∃ k, e.1.key = some (Key.kstr k)) →
      (l.map (fun e => e.1.key)).Nodup →
      (sortProperties l).Perm l ∧ (sortProperties l).Pairwise propOrder := by
  intro l hstr hnd
  refine ⟨sortProperties_perm l, ?_⟩
  have hnd' : l.Pairwise (fun a b => a.1.key ≠ b.1.key) := by
    have := hnd
    unfold List.Nodup at this
    exact List.pairwise_map.mp this
  clear hnd
  induction l with
  | nil => simp [sortProperties]
  | cons x xs ih =>
    have h1 : sortProperties (x :: xs) = sortInsert x (sortProperties xs) := rfl
    rw [h1]
    have hperm := sortProperties_perm xs
    apply sortInsert_pairwise
    · exact hstr x (by simp)
    · intro e he
      exact hstr e (by simp [hperm.mem_iff.mp he])
    · intro e he
      exact (List.pairwise_cons.mp hnd').1 e (hperm.mem_iff.mp he)
    · exact ih (fun e he => hstr e (by simp [he])) (List.pairwise_cons.mp hnd').2

/-- C5 witness: the Schema-like weights sort as `type` (-10), `format`
(-9), `maximum` (-8), then the weight-0 keys `pattern`, `title` in key
order. -/
theorem properties_sorted_by_weight_then_key_witness :
    (sortProperties demoProps).Perm demoProps
      ∧ (sortProperties demoProps).Pairwise propOrder := by
  apply properties_sorted_by_weight_then_key
  · intro e he
    simp only [demoProps, List.mem_cons, List.not_mem_nil, or_false] at he
    rcases he with rfl | rfl | rfl | rfl | rfl
    · exact ⟨"title", rfl⟩
    · exact ⟨"maximum", rfl⟩
    · exact ⟨"format", rfl⟩
    · exact ⟨"pattern", rfl⟩
    · exact ⟨"type", rfl⟩
  · decide

/-- Do-notation bind over `NM` is `NM.bind`. -/
theorem nmBind_def {α β : Type} (m : NM α) (k : α → NM β) : (m >>= k) = NM.bind m k := rfl

/-- Do-notation pure over `NM` is `NM.pure`. -/
theorem nmPure_def {α : Type} (a : α) : (pure a : NM α) = NM.pure a := rfl

/-- Pointwise unfolding of bind. -/
theorem NM.bind_apply {α β : Type} (m : NM α) (k : α → NM β) (s : St) :
    NM.bind m k s = (match m s with
      | none => none
      | some (.error e, s') => some (.error e, s')
      | some (.ok a, s') => k a s') := rfl

/-- C4 counterexample.  The claim says a falsy child validator returns the
raw definition unchanged for all definition types.  On an object-valued
child the source returns `data.result`, the fresh empty container
`childData` preallocated, not the raw definition: here the raw definition
is the object `\x7b a: 1 \x7d` while the returned value is the distinct
empty result container. -/
theorem runChildValidator_falsy_object_counterexample :
    runChildValidatorF (normalizeF oneObjHeap 1) oneObjHeap falsyChildCtx stInit
        = some (.ok (.rref 0), stInit)
      ∧ Val.rref 0 ≠ falsyChildCtx.definition
      ∧ stInit.resHeap.get? 0 = some (.objN [])
      ∧ oneObjHeap.get? 0 = some (.objN [("a", .prim (.pnum 1))]) := by
  refine ⟨by rfl, by decide, by decide, by decide⟩

/-- C4 (amended).  A falsy resolved child validator makes
`runChildValidator` return `data.result` with the state untouched; and by
`childData`, that result is the raw definition itself exactly for
non-array, non-object children, while array and object children get a
fresh empty container. -/
theorem runChildValidator_falsy_returns_result :
    (∀ (H : DefHeap) (fuel : Nat) (ctx : Ctx) (s : St),
      Validator.truthy ctx.validator = false →
      runChildValidatorF (normalizeF H fuel) H ctx s = some (.ok ctx.result, s))
    ∧ (∀ (H : DefHeap) (parent : Ctx) (k : Key) (v : Validator) (s : St) (c : Ctx) (s' : St),
      childDataF H parent k v s = some (.ok c, s') →
      ((c.definitionType ≠ .tArray ∧ c.definitionType ≠ .tObject) →
          c.result = c.definition ∧ s' = s)
      ∧ (c.definitionType = .tArray →
          c.result = .rref s.resHeap.length ∧ s'.resHeap = s.resHeap ++ [Node.arrN []])
      ∧ (c.definitionType = .tObject →
          c.result = .rref s.resHeap.length ∧ s'.resHeap = s.resHeap ++ [Node.objN []])) := by
  constructor
  · intro H fuel ctx s h
    cases hv : ctx.validator with
    | vNull =>
      simp [runChildValidatorF, runFnValidator, hv, nmBind_def, NM.bind_apply, nmPure_def,
        NM.pure, Validator.truthy]
    | vFalse =>
      simp [runChildValidatorF, runFnValidator, hv, nmBind_def, NM.bind_apply, nmPure_def,
        NM.pure, Validator.truthy]
    | vTrue => rw [hv] at h; simp [Validator.truthy] at h
    | vFn f => rw [hv] at h; simp [Validator.truthy] at h
    | eref n c => rw [hv] at h; simp [Validator.truthy] at h
    | desc t e it ap ps al rq ig df er w => rw [hv] at h; simp [Validator.truthy] at h
  · intro H parent k v s c s' h
    unfold childDataF at h
    split at h
    · simp at h
    · split at h
      · simp only [Option.some.injEq, Prod.mk.injEq, Except.ok.injEq] at h
        obtain ⟨hc, hs⟩ := h
        subst hc
        refine ⟨fun hne => absurd rfl hne.1, fun _ => ⟨rfl, by rw [← hs]⟩, fun habs => ?_⟩
        simp [mkChild] at habs
      · simp only [Option.some.injEq, Prod.mk.injEq, Except.ok.injEq] at h
        obtain ⟨hc, hs⟩ := h
        subst hc
        refine ⟨fun hne => absurd rfl hne.2, fun habs => ?_, fun _ => ⟨rfl, by rw [← hs]⟩⟩
        simp [mkChild] at habs
      · rename_i hne1 hne2
        simp only [Option.some.injEq, Prod.mk.injEq, Except.ok.injEq] at h
        obtain ⟨hc, hs⟩ := h
        subst hc
        refine ⟨fun _ => ⟨rfl, hs.symm⟩, fun habs => ?_, fun habs => ?_⟩
        · exact absurd habs hne1
        · exact absurd habs hne2

/-- C4 witness: for a scalar child the falsy-validator return is the raw
definition itself, and `childData` on a scalar member passes the
definition through as result. -/
theorem runChildValidator_falsy_returns_result_witness :
    runChildValidatorF (normalizeF oneObjHeap 1) oneObjHeap scalarFalsyCtx stInit
      = some (.ok (Val.prim (.pstr "v")), stInit) := by
  have h := runChildValidator_falsy_returns_result.1 oneObjHeap 1 scalarFalsyCtx stInit
    (by decide)
  simpa using h

/-- C6.  `normalize` never propagates a thrown error to its caller: a
body that throws is caught, the unexpected-error message is recorded at
the current path, and the context's result is returned; a normal body
return passes through unchanged; and a context whose `validator` member
is `null`/`undefined` genuinely throws inside the body (at the
`validator.type` read of `validateType`) and is caught exactly this way. -/
theorem normalize_catches_all_errors :
    (∀ (H : DefHeap) (f : Nat) (ctx : Ctx) (s : St) (e : String) (s' : St),
      normalizeBody (normalizeF H f) H ctx s = some (.error e, s') →
      normalizeF H (f + 1) ctx s
        = some (.ok ctx.result, { s' with exc := s'.exc ++ [(ctx.path, unexpectedMsg e)] }))
    ∧ (∀ (H : DefHeap) (f : Nat) (ctx : Ctx) (s : St) (v : Val) (s' : St),
      normalizeBody (normalizeF H f) H ctx s = some (.ok v, s') →
      normalizeF H (f + 1) ctx s = some (.ok v, s'))
    ∧ (∀ (H : DefHeap) (f : Nat) (ctx : Ctx) (s : St), ctx.validator = .vNull →
      normalizeBody (normalizeF H f) H ctx s = some (.error (nullRead "type"), s)
      ∧ normalizeF H (f + 1) ctx s = some (.ok ctx.result,
          { s with exc := s.exc ++ [(ctx.path, unexpectedMsg (nullRead "type"))] })) := by
  refine ⟨?_, ?_, ?_⟩
  · intro H f ctx s e s' h
    simp [normalizeF, nmCatch, h, pushExc, nmBind_def, NM.bind_apply, nmPure_def, NM.pure]
  · intro H f ctx s v s' h
    simp [normalizeF, nmCatch, h]
  · intro H f ctx s hv
    have hbody : normalizeBody (normalizeF H f) H ctx s = some (.error (nullRead "type"), s) := by
      simp [normalizeBody, runFnValidator, hv, validateTypeF, Validator.isNull, nmThrow,
        nmBind_def, NM.bind_apply]
    refine ⟨hbody, ?_⟩
    simp [normalizeF, nmCatch, hbody, pushExc, nmBind_def, NM.bind_apply, nmPure_def, NM.pure]

/-- C6 witness: a concrete context with a `null` validator member. -/
theorem normalize_catches_all_errors_witness :
    normalizeBody (normalizeF [] 0) [] nullValidatorCtx stInit
        = some (.error (nullRead "type"), stInit)
      ∧ normalizeF [] 1 nullValidatorCtx stInit = some (.ok nullValidatorCtx.result,
          { stInit with exc := stInit.exc
              ++ [(nullValidatorCtx.path, unexpectedMsg (nullRead "type"))] }) :=
  normalize_catches_all_errors.2.2 [] 0 nullValidatorCtx stInit rfl

/-- C2 counterexample.  The claim says the enum check passes any value
member-wise (deeply) equal to an allowed value even when not identical.
Two distinct empty objects are member-wise equal, yet the source's
`includes` check (SameValueZero, reference identity on objects) attaches
the mismatch message. -/
theorem enum_memberwise_equal_still_errors :
    memberwiseEq twoEmptyHeap 2 (.dref 0) (.dref 1) = true
    ∧ normalizeF twoEmptyHeap 2 enumObjCtx stInit
        = some (.ok (.rref 0),
            { resHeap := [.objN []], map := [(.dref 0, .rref 0)],
              exc := [([], enumMismatchMsg [.dref 1] (.dref 0))] })
    ∧ enumMismatchMsg [.dref 1] (.dref 0)
        = "Value must be [object]. Received: [object]" := by
  refine ⟨by decide, by rfl, by rfl⟩

set_option maxHeartbeats 1000000 in
/-- C2 (amended).  With an enum list in force, the walker attaches the
mismatch message at the current path exactly when the definition is not
SameValueZero-equal (`includes`) to one of the allowed values: primitives
compare by value, objects by reference identity, so a structurally equal
but non-identical object is rejected, not accepted.  Stated for scalar
contexts and for fresh empty-object contexts. -/
theorem enum_same_value_zero_check :
    (∀ (H : DefHeap) (fuel : Nat) (ctx : Ctx) (s : St) (p : Prim) (vals : List Val),
      ctx.definition = .prim p →
      (ctx.definitionType = .tBoolean ∨ ctx.definitionType = .tNumber
        ∨ ctx.definitionType = .tString) →
      ctx.validator = .desc none (some (.lit vals)) none none none none none none none none none →
      normalizeF H (fuel + 1) ctx s
        = some (.ok (.prim p),
            if listIncludes vals (.prim p) then s
            else { s with exc := s.exc ++ [(ctx.path, enumMismatchMsg vals (.prim p))] }))
    ∧ (∀ (H : DefHeap) (fuel : Nat) (ctx : Ctx) (s : St) (i : Nat) (vals : List Val),
      ctx.definition = .dref i →
      H.get? i = some (.objN []) →
      ctx.definitionType = .tObject →
      valMapLookup s.map (.dref i) = none →
      ctx.validator = .desc none (some (.lit vals)) none none none none none none none none none →
      normalizeF H (fuel + 1) ctx s
        = some (.ok ctx.result,
            if listIncludes vals (.dref i) then
              { s with map := valMapSet s.map (.dref i) ctx.result }
            else { s with
                map := valMapSet s.map (.dref i) ctx.result,
                exc := s.exc ++ [(ctx.path, enumMismatchMsg vals (.dref i))] })) := by
  constructor
  · intro H fuel ctx s p vals hdef hdt hv
    rcases hdt with hdt | hdt | hdt <;>
      by_cases hinc : listIncludes vals (.prim p) = true <;>
        simp [normalizeF, nmCatch, normalizeBody, normalizeAfterGuard, normalizeDispatch,
          runFnValidator, validateTypeF, enumStep, Validator.isNull, Validator.typeF, Validator.enumF,
          Validator.errorsOf, evalField, mapGetOp, mapSetOp, pushExc, hdef, hdt, hv, hinc,
          Val.isObjectVal, nmBind_def, NM.bind_apply, nmPure_def, NM.pure]
  · intro H fuel ctx s i vals hdef hnode hdt hmap hv
    rw [List.get?_eq_getElem?] at hnode
    by_cases hinc : listIncludes vals (.dref i) = true <;>
      simp [normalizeF, nmCatch, normalizeBody, normalizeAfterGuard, normalizeDispatch,
        runFnValidator, validateTypeF, enumStep, objectBranch, splitExtensions, decorateProps, sortProperties,
        propsLoop, objFieldsOf, Validator.isNull, Validator.typeF, Validator.enumF,
        Validator.errorsOf, Validator.apOf, Validator.propsOf, evalField, mapGetOp, mapSetOp,
        pushExc, hdef, hnode, hdt, hmap, hv, hinc, Val.isObjectVal,
        nmBind_def, NM.bind_apply, nmPure_def, NM.pure]

/-- C2 witness: a scalar string context whose enum does not list it gets
the mismatch message; one whose enum lists it passes untouched. -/
theorem enum_same_value_zero_check_witness :
    normalizeF [] 1 (mkScalarEnumCtx (.pstr "red") [.prim (.pstr "blue")]) stInit
        = some (.ok (.prim (.pstr "red")),
            if listIncludes [.prim (.pstr "blue")] (.prim (.pstr "red")) then stInit
            else { stInit with exc := stInit.exc
              ++ [([], enumMismatchMsg [.prim (.pstr "blue")] (.prim (.pstr "red")))] }) :=
  enum_same_value_zero_check.1 [] 0 (mkScalarEnumCtx (.pstr "red") [.prim (.pstr "blue")])
    stInit (.pstr "red") [.prim (.pstr "blue")] rfl (Or.inr (Or.inr rfl)) rfl

/-- A successful lookup exposes a member of the map. -/
theorem valMapLookup_mem {m : List (Val × Val)} {k v : Val}
    (h : valMapLookup m k = some v) : (k, v) ∈ m := by
  unfold valMapLookup at h
  cases hf : m.find? (fun p => p.1 = k) with
  | none => rw [hf] at h; cases h
  | some p =>
    rw [hf] at h
    have hp := List.find?_some hf
    have hm := List.mem_of_find?_eq_some hf
    simp only [decide_eq_true_eq] at hp
    simp only [Option.some.injEq] at h
    have : p = (k, v) := by
      cases p with
      | mk a b => simp only at hp h; rw [hp, h]
    rw [← this]; exact hm

/-- Unfolding lookup over a cons cell. -/
theorem valMapLookup_cons (a b : Val) (rest : List (Val × Val)) (k : Val) :
    valMapLookup ((a, b) :: rest) k = if a = k then some b else valMapLookup rest k := by
  unfold valMapLookup
  rw [List.find?]
  by_cases h : a = k
  · rw [if_pos h]
    have hd : decide ((a, b).1 = k) = true := by simp [h]
    rw [hd]
  · rw [if_neg h]
    have hd : decide ((a, b).1 = k) = false := by simp [h]
    rw [hd]

/-- Lookup after setting the same key. -/
theorem valMapLookup_set_self (m : List (Val × Val)) (k v : Val) :
    valMapLookup (valMapSet m k v) k = some v := by
  induction m with
  | nil => rw [valMapSet, valMapLookup_cons, if_pos rfl]
  | cons p rest ih =>
    obtain ⟨a, b⟩ := p
    rw [valMapSet]
    by_cases h : a = k
    · rw [if_pos h, valMapLookup_cons, if_pos rfl]
    · rw [if_neg h, valMapLookup_cons, if_neg h]
      exact ih

/-- Lookup after setting a different key. -/
theorem valMapLookup_set_other (m : List (Val × Val)) (k v k' : Val) (h : k' ≠ k) :
    valMapLookup (valMapSet m k v) k' = valMapLookup m k' := by
  induction m with
  | nil =>
    rw [valMapSet, valMapLookup_cons, if_neg (fun he => h he.symm)]
  | cons p rest ih =>
    obtain ⟨a, b⟩ := p
    rw [valMapSet]
    by_cases ha : a = k
    · subst ha
      rw [if_pos rfl, valMapLookup_cons, valMapLookup_cons,
        if_neg (fun he => h he.symm), if_neg (fun he => h he.symm)]
    · rw [if_neg ha, valMapLookup_cons, valMapLookup_cons]
      by_cases hak : a = k'
      · rw [if_pos hak, if_pos hak]
      · rw [if_neg hak, if_neg hak]
        exact ih

/-- Members of an updated map. -/
theorem valMapSet_mem {m : List (Val × Val)} {k v : Val} {p : Val × Val}
    (h : p ∈ valMapSet m k v) : p = (k, v) ∨ p ∈ m := by
  induction m with
  | nil => rw [valMapSet] at h; simp at h; exact Or.inl h
  | cons q rest ih =>
    obtain ⟨a, b⟩ := q
    rw [valMapSet] at h
    by_cases ha : a = k
    · rw [if_pos ha] at h
      rcases List.mem_cons.mp h with h | h
      · exact Or.inl h
      · exact Or.inr (List.mem_cons.mpr (Or.inr h))
    · rw [if_neg ha] at h
      rcases List.mem_cons.mp h with h | h
      · exact Or.inr (List.mem_cons.mpr (Or.inl h))
      · rcases ih h with h | h
        · exact Or.inl h
        · exact Or.inr (List.mem_cons.mpr (Or.inr h))

/-- Key-set inclusion is reflexive. -/
theorem subKeys_refl (m : List (Val × Val)) : subKeys m m := fun _ h => h

/-- Key-set inclusion is transitive. -/
theorem subKeys_trans {m1 m2 m3 : List (Val × Val)} (h1 : subKeys m1 m2) (h2 : subKeys m2 m3) :
    subKeys m1 m3 := fun k h => h2 k (h1 k h)

/-- Setting a key only grows the key set. -/
theorem subKeys_set (m : List (Val × Val)) (k v : Val) : subKeys m (valMapSet m k v) := by
  intro k' h
  by_cases hk : k' = k
  · subst hk; rw [valMapLookup_set_self]; rfl
  · rw [valMapLookup_set_other m k v k' hk]; exact h

/-- A truthy-valued map stays truthy-valued under a truthy insertion. -/
theorem StWF_set {s : St} {k v : Val} (hs : ∀ p ∈ s.map, jsTruthy (p : Val × Val).2 = true)
    (hv : jsTruthy v = true) :
    ∀ p ∈ valMapSet s.map k v, jsTruthy (p : Val × Val).2 = true := by
  intro p hp
  rcases valMapSet_mem hp with rfl | hp
  · exact hv
  · exact hs p hp

/-- Filtering with a pointwise-weaker predicate keeps no more elements. -/
theorem filter_length_mono {p q : Nat → Bool} (l : List Nat)
    (h : ∀ a ∈ l, p a = true → q a = true) : (l.filter p).length ≤ (l.filter q).length := by
  induction l with
  | nil => simp
  | cons a t ih =>
    have ht : ∀ b ∈ t, p b = true → q b = true := fun b hb => h b (List.mem_cons.mpr (Or.inr hb))
    rw [List.filter_cons, List.filter_cons]
    by_cases hp : p a = true
    · rw [if_pos hp, if_pos (h a (List.mem_cons.mpr (Or.inl rfl)) hp)]
      simpa using ih ht
    · rw [if_neg hp]
      split
      · exact Nat.le_succ_of_le (ih ht)
      · exact ih ht

/-- Flipping one kept element to dropped strictly shrinks the filter. -/
theorem filter_length_strict {p q : Nat → Bool} (l : List Nat) (hnd : l.Nodup) (i : Nat)
    (hi : i ∈ l) (hpi : p i = false) (hqi : q i = true)
    (hcong : ∀ a ∈ l, a ≠ i → p a = q a) :
    (l.filter p).length < (l.filter q).length := by
  induction l with
  | nil => cases hi
  | cons a t ih =>
    have hndt := (List.nodup_cons.mp hnd).2
    have hanotint := (List.nodup_cons.mp hnd).1
    rw [List.filter_cons, List.filter_cons]
    by_cases hai : a = i
    · subst hai
      rw [if_neg (by rw [hpi]; simp), if_pos (by rw [hqi])]
      have hpq : ∀ b ∈ t, p b = q b := fun b hb =>
        hcong b (List.mem_cons.mpr (Or.inr hb)) (fun he => hanotint (he ▸ hb))
      rw [List.filter_congr hpq]
      simp [Nat.lt_succ_self]
    · have hit : i ∈ t := by
        rcases List.mem_cons.mp hi with h | h
        · exact absurd h.symm hai
        · exact h
      have hrec := ih hndt hit
        (fun b hb hbi => hcong b (List.mem_cons.mpr (Or.inr hb)) hbi)
      have hpa : p a = q a := hcong a (List.mem_cons.mpr (Or.inl rfl)) hai
      by_cases hp : p a = true
      · rw [if_pos hp, if_pos (hpa ▸ hp)]
        simpa using hrec
      · rw [if_neg hp, if_neg (hpa ▸ hp)]
        exact hrec

/-- Growing the key set never increases the uncached count. -/
theorem uncached_mono {H : DefHeap} {m m' : List (Val × Val)} (h : subKeys m m') :
    uncachedCount H m' ≤ uncachedCount H m := by
  unfold uncachedCount
  apply filter_length_mono
  intro a _ hp
  simp only [Bool.not_eq_true'] at hp ⊢
  cases hla : (valMapLookup m (Val.dref a)).isSome with
  | false => rfl
  | true =>
    have := h (Val.dref a) hla
    rw [this] at hp
    cases hp

/-- Inserting a fresh, heap-valid definition strictly shrinks the
uncached count. -/
theorem uncached_strict {H : DefHeap} {m : List (Val × Val)} {i : Nat} {v : Val}
    (hi : i < H.length) (hfresh : valMapLookup m (.dref i) = none) :
    uncachedCount H (valMapSet m (.dref i) v) < uncachedCount H m := by
  unfold uncachedCount
  apply filter_length_strict (List.range H.length) (List.nodup_range H.length) i
    (List.mem_range.mpr hi)
  · rw [valMapLookup_set_self]; rfl
  · rw [hfresh]; rfl
  · intro a _ hai
    rw [valMapLookup_set_other m (Val.dref i) v (Val.dref a) (by simp [hai])]

/-- A map-preserving total step is good at any bound. -/
theorem NTot_to_NGoodP {α : Type} {m : NM α} {P : α → Prop} (H : DefHeap) (b : Nat)
    (h : NTot m P) : NGoodP H b m P := by
  intro s hs hb
  obtain ⟨r, s', he, hm, hp⟩ := h s
  refine ⟨r, s', he, ?_, ?_, hp⟩
  · intro p hpmem; rw [hm] at hpmem; exact hs p hpmem
  · rw [hm]; exact subKeys_refl _

/-- `pure` is total. -/
theorem NTot_pure {α : Type} (a : α) {P : α → Prop} (hp : P a) : NTot (pure a : NM α) P :=
  fun s => ⟨.ok a, s, rfl, rfl, fun x hx => by cases hx; exact hp⟩

/-- `nmThrow` is total (it answers with an error). -/
theorem NTot_throw {α : Type} (e : String) (P : α → Prop) : NTot (nmThrow e : NM α) P :=
  fun s => ⟨.error e, s, rfl, rfl, fun x hx => by cases hx⟩

/-- Totality composes over bind. -/
theorem NTot_bind {α β : Type} {m : NM α} {k : α → NM β} {P : α → Prop} {Q : β → Prop}
    (hm : NTot m P) (hk : ∀ a, P a → NTot (k a) Q) : NTot (m >>= k) Q := by
  intro s
  obtain ⟨r, s', he, hmap, hp⟩ := hm s
  cases r with
  | error e =>
    exact ⟨.error e, s', by simp [nmBind_def, NM.bind_apply, he], hmap, fun x hx => by cases hx⟩
  | ok a =>
    obtain ⟨r2, s2, he2, hmap2, hq⟩ := hk a (hp a rfl) s'
    exact ⟨r2, s2, by simp [nmBind_def, NM.bind_apply, he, he2], by rw [hmap2, hmap], hq⟩

/-- `pure` is good at any bound. -/
theorem NGoodP_pure {α : Type} (H : DefHeap) (b : Nat) (a : α) {P : α → Prop} (hp : P a) :
    NGoodP H b (pure a : NM α) P :=
  NTot_to_NGoodP H b (NTot_pure a hp)

/-- Goodness composes over bind: the key set only grows, so the bound
stays available for the continuation. -/
theorem NGoodP_bind {α β : Type} {H : DefHeap} {b : Nat} {m : NM α} {k : α → NM β}
    {P : α → Prop} {Q : β → Prop}
    (hm : NGoodP H b m P) (hk : ∀ a, P a → NGoodP H b (k a) Q) :
    NGoodP H b (m >>= k) Q := by
  intro s hs hb
  obtain ⟨r, s', he, hwf, hsub, hp⟩ := hm s hs hb
  cases r with
  | error e =>
    exact ⟨.error e, s', by simp [nmBind_def, NM.bind_apply, he], hwf, hsub,
      fun x hx => by cases hx⟩
  | ok a =>
    have hb' : uncachedCount H s'.map < b := lt_of_le_of_lt (uncached_mono hsub) hb
    obtain ⟨r2, s2, he2, hwf2, hsub2, hq⟩ := hk a (hp a rfl) s' hwf hb'
    exact ⟨r2, s2, by simp [nmBind_def, NM.bind_apply, he, he2], hwf2,
      subKeys_trans hsub hsub2, hq⟩

/-- Weakening of the result postcondition. -/
theorem NGoodP_weaken {α : Type} {H : DefHeap} {b : Nat} {m : NM α} {P Q : α → Prop}
    (h : NGoodP H b m P) (hpq : ∀ a, P a → Q a) : NGoodP H b m Q := by
  intro s hs hb
  obtain ⟨r, s', he, hwf, hsub, hp⟩ := h s hs hb
  exact ⟨r, s', he, hwf, hsub, fun a ha => hpq a (hp a ha)⟩

/-- Reading a function of the state is total. -/
theorem NTot_readState {α : Type} (f : St → α) :
    NTot (fun s => some (.ok (f s), s) : NM α) (fun _ => True) :=
  fun s => ⟨.ok (f s), s, rfl, rfl, fun _ _ => trivial⟩

/-- `pushExc` is total and map-preserving. -/
theorem NTot_pushExc (p : EPath) (msg : String) : NTot (pushExc p msg) (fun _ => True) :=
  fun s => ⟨.ok (), _, rfl, rfl, fun _ _ => trivial⟩

/-- `allocNode` is total and map-preserving. -/
theorem NTot_allocNode (n : Node) : NTot (allocNode n) (fun _ => True) :=
  fun s => ⟨.ok s.resHeap.length, _, rfl, rfl, fun _ _ => trivial⟩

/-- `setRes` is total and map-preserving. -/
theorem NTot_setRes (i : Nat) (n : Node) : NTot (setRes i n) (fun _ => True) :=
  fun s => ⟨.ok (), _, rfl, rfl, fun _ _ => trivial⟩

/-- A member write is total and map-preserving. -/
theorem NTot_objSetMember (t : Val) (k : String) (v : Val) :
    NTot (objSetMember t k v) (fun _ => True) := by
  intro s
  cases t with
  | prim p => exact ⟨.error "TypeError: Cannot set member of a primitive", s, rfl, rfl,
      fun _ hx => by cases hx⟩
  | dref i => exact ⟨.ok (), s, rfl, rfl, fun _ _ => trivial⟩
  | rref i =>
    cases hget : s.resHeap.get? i with
    | none =>
      refine ⟨.ok (), s, ?_, rfl, fun _ _ => trivial⟩
      simp only [objSetMember, hget]
    | some node =>
      cases node with
      | arrN es =>
        refine ⟨.ok (), s, ?_, rfl, fun _ _ => trivial⟩
        simp only [objSetMember, hget]
      | objN fs =>
        refine ⟨.ok (), { s with resHeap := s.resHeap.set i (.objN (alSet fs k v)) }, ?_, rfl,
          fun _ _ => trivial⟩
        simp only [objSetMember, hget]

/-- An array push is total and map-preserving. -/
theorem NTot_arrPushMember (t : Val) (v : Val) :
    NTot (arrPushMember t v) (fun _ => True) := by
  intro s
  cases t with
  | prim p => exact ⟨.error "TypeError: push is not a function", s, rfl, rfl,
      fun _ hx => by cases hx⟩
  | dref i => exact ⟨.error "TypeError: push is not a function", s, rfl, rfl,
      fun _ hx => by cases hx⟩
  | rref i =>
    cases hget : s.resHeap.get? i with
    | none =>
      refine ⟨.error "TypeError: push is not a function", s, ?_, rfl, fun _ hx => by cases hx⟩
      simp only [arrPushMember, hget]
    | some node =>
      cases node with
      | arrN es =>
        refine ⟨.ok (), { s with resHeap := s.resHeap.set i (.arrN (es ++ [v])) }, ?_, rfl,
          fun _ _ => trivial⟩
        simp only [arrPushMember, hget]
      | objN fs =>
        refine ⟨.error "TypeError: push is not a function", s, ?_, rfl, fun _ hx => by cases hx⟩
        simp only [arrPushMember, hget]

/-- `evalField` is total and map-preserving. -/
theorem NTot_evalField {α : Type} (fld : FieldV α) (c : CbCtx) :
    NTot (evalField fld c) (fun _ => True) := by
  intro s
  cases fld with
  | lit a => exact ⟨.ok (some a), s, rfl, rfl, fun _ _ => trivial⟩
  | cb f =>
    simp only [evalField]
    cases hf : f c s with
    | mk msgs r =>
      cases r with
      | ok a => exact ⟨.ok (some a), _, rfl, rfl, fun _ _ => trivial⟩
      | error e => exact ⟨.ok none, _, rfl, rfl, fun _ _ => trivial⟩

/-- A good `default` field always synthesizes a primitive. -/
theorem evalField_defaultPrim (fld : FieldV Val) (c : CbCtx) (hg : GoodDefaultFld fld) :
    NTot (evalField fld c) (fun o => (o.getD (.prim .pundef)).isPrimV = true) := by
  intro s
  cases fld with
  | lit a => exact ⟨.ok (some a), s, rfl, rfl, fun x hx => by cases hx; exact hg⟩
  | cb f =>
    simp only [evalField]
    cases hf : f c s with
    | mk msgs r =>
      cases r with
      | ok a =>
        refine ⟨.ok (some a), _, rfl, rfl, fun x hx => ?_⟩
        cases hx
        exact hg c s msgs a hf
      | error e =>
        exact ⟨.ok none, _, rfl, rfl, fun x hx => by cases hx; rfl⟩

/-- Resolving a good validator yields a good validator (`undefined` on a
throwing callback, which is good). -/
theorem runFnValidator_good (v : Validator) (c : CbCtx) (hg : GoodV v) :
    NTot (runFnValidator v c) (fun o => GoodV (o.getD .vNull)) := by
  intro s
  cases v with
  | vFn f =>
    simp only [runFnValidator]
    cases hf : f c s with
    | mk msgs r =>
      cases r with
      | ok v' =>
        refine ⟨.ok (some v'), _, rfl, rfl, fun x hx => ?_⟩
        cases hx
        cases hg with
        | vFn f h => exact h c s msgs v' hf
      | error e =>
        exact ⟨.ok none, _, rfl, rfl, fun x hx => by cases hx; exact GoodV.vNull⟩
  | vTrue => exact ⟨.ok (some .vTrue), s, rfl, rfl, fun x hx => by cases hx; exact hg⟩
  | vFalse => exact ⟨.ok (some .vFalse), s, rfl, rfl, fun x hx => by cases hx; exact hg⟩
  | vNull => exact ⟨.ok (some .vNull), s, rfl, rfl, fun x hx => by cases hx; exact hg⟩
  | eref n cfg => exact ⟨.ok (some (.eref n cfg)), s, rfl, rfl, fun x hx => by cases hx; exact hg⟩
  | desc t e it ap ps al rq ig df er w =>
    exact ⟨.ok (some (.desc t e it ap ps al rq ig df er w)), s, rfl, rfl,
      fun x hx => by cases hx; exact hg⟩

/-- An `errors` callback run is total and map-preserving. -/
theorem NTot_runErrorsCb (f : CbCtx → St → Msgs × Except String Unit) (c : CbCtx) :
    NTot (runErrorsCb f c) (fun _ => True) := by
  intro s
  simp only [runErrorsCb]
  cases hf : f c s with
  | mk msgs r =>
    cases r with
    | ok u => exact ⟨.ok (), _, rfl, rfl, fun _ _ => trivial⟩
    | error e => exact ⟨.ok (), _, rfl, rfl, fun _ _ => trivial⟩

/-- The type check is total and map-preserving. -/
theorem NTot_validateTypeF (ctx : Ctx) : NTot (validateTypeF ctx) (fun _ => True) := by
  unfold validateTypeF
  split
  · exact NTot_throw _ _
  · split
    · exact NTot_pure _ trivial
    · split
      · exact NTot_pure _ trivial
      · split
        · exact NTot_pure _ trivial
        · refine NTot_bind (NTot_evalField _ _) (fun mo _ => ?_)
          dsimp only
          split
          · exact NTot_pure _ trivial
          · exact NTot_bind (NTot_pushExc _ _) (fun _ _ => NTot_pure _ trivial)

/-- The enum check is total and map-preserving. -/
theorem NTot_enumStep (validator : Validator) (ctx : Ctx) :
    NTot (enumStep validator ctx) (fun _ => True) := by
  unfold enumStep
  split
  · exact NTot_throw _ _
  · split
    · exact NTot_pure _ trivial
    · refine NTot_bind (NTot_evalField _ _) (fun mo _ => ?_)
      cases mo with
      | none => exact NTot_throw _ _
      | some ms =>
        dsimp only
        split
        · exact NTot_pure _ trivial
        · exact NTot_pushExc _ _

/-- The `allowed` gate is total and map-preserving. -/
theorem NTot_evalAllowed (kv : Validator) (c : CbCtx) :
    NTot (evalAllowed kv c) (fun _ => True) := by
  cases hA : kv.allowedF with
  | none => simp only [evalAllowed, hA]; exact NTot_pure _ trivial
  | some fld =>
    simp only [evalAllowed, hA]
    exact NTot_bind (NTot_evalField _ _) (fun b _ => NTot_pure _ trivial)

/-- The `ignored` gate is total and map-preserving. -/
theorem NTot_evalIgnoredGate (kv : Validator) (c : CbCtx) :
    NTot (evalIgnoredGate kv c) (fun _ => True) := by
  cases hI : kv.ignoredF with
  | none => simp only [evalIgnoredGate, hI]; exact NTot_pure _ trivial
  | some fld =>
    simp only [evalIgnoredGate, hI]
    split
    · exact NTot_pure _ trivial
    · exact NTot_bind (NTot_evalField _ _) (fun b _ => NTot_pure _ trivial)

/-- The `required` gate is total and map-preserving. -/
theorem NTot_evalRequired (kv : Validator) (c : CbCtx) :
    NTot (evalRequired kv c) (fun _ => True) := by
  cases hR : kv.requiredF with
  | none => simp only [evalRequired, hR]; exact NTot_pure _ trivial
  | some fld =>
    simp only [evalRequired, hR]
    split
    · exact NTot_pure _ trivial
    · exact NTot_bind (NTot_evalField _ _) (fun b _ => NTot_pure _ trivial)

/-- The element copy is total whenever the value copy is. -/
theorem copyListF_tot_of (H : DefHeap) (fuel : Nat)
    (hv : ∀ seen v, NTot (copyValF H fuel seen v) (fun _ => True)) :
    ∀ (l : List Val) (seen : List (Nat × Val)),
      NTot (copyListF H fuel seen l) (fun _ => True) := by
  intro l
  induction l with
  | nil => intro seen; simp only [copyListF]; exact NTot_pure _ trivial
  | cons e rest ih =>
    intro seen
    simp only [copyListF]
    refine NTot_bind (hv seen e) (fun p _ => ?_)
    obtain ⟨v1, seen1⟩ := p
    refine NTot_bind (ih seen1) (fun q _ => ?_)
    obtain ⟨vs, seen2⟩ := q
    exact NTot_pure _ trivial

/-- The field copy is total whenever the value copy is. -/
theorem copyFieldsF_tot_of (H : DefHeap) (fuel : Nat)
    (hv : ∀ seen v, NTot (copyValF H fuel seen v) (fun _ => True)) :
    ∀ (l : List (String × Val)) (seen : List (Nat × Val)),
      NTot (copyFieldsF H fuel seen l) (fun _ => True) := by
  intro l
  induction l with
  | nil => intro seen; simp only [copyFieldsF]; exact NTot_pure _ trivial
  | cons kv rest ih =>
    obtain ⟨k, e⟩ := kv
    intro seen
    simp only [copyFieldsF]
    refine NTot_bind (hv seen e) (fun p _ => ?_)
    obtain ⟨v1, seen1⟩ := p
    refine NTot_bind (ih seen1) (fun q _ => ?_)
    obtain ⟨fs, seen2⟩ := q
    exact NTot_pure _ trivial

/-- The deep copy is total and map-preserving at every fuel. -/
theorem copyValF_tot (H : DefHeap) : ∀ (fuel : Nat) (seen : List (Nat × Val)) (v : Val),
    NTot (copyValF H fuel seen v) (fun _ => True) := by
  intro fuel
  induction fuel with
  | zero =>
    intro seen v
    simp only [copyValF]
    exact NTot_pure _ trivial
  | succ f ih =>
    intro seen v
    cases v with
    | prim p => simp only [copyValF]; exact NTot_pure _ trivial
    | rref i => simp only [copyValF]; exact NTot_pure _ trivial
    | dref i =>
      simp only [copyValF]
      cases hfind : seen.find? (fun p => p.1 = i) with
      | some p => exact NTot_pure _ trivial
      | none =>
        cases hg : H.get? i with
        | none => exact NTot_pure _ trivial
        | some node =>
          cases node with
          | arrN es =>
            refine NTot_bind (NTot_allocNode _) (fun rid _ => ?_)
            refine NTot_bind (copyListF_tot_of H f ih es _) (fun q _ => ?_)
            obtain ⟨vs, seen2⟩ := q
            exact NTot_bind (NTot_setRes _ _) (fun _ _ => NTot_pure _ trivial)
          | objN fs =>
            refine NTot_bind (NTot_allocNode _) (fun rid _ => ?_)
            refine NTot_bind (copyFieldsF_tot_of H f ih fs _) (fun q _ => ?_)
            obtain ⟨fs2, seen2⟩ := q
            exact NTot_bind (NTot_setRes _ _) (fun _ _ => NTot_pure _ trivial)

/-- The extension split is total and map-preserving. -/
theorem NTot_splitExtensions (data : Ctx) :
    ∀ l, NTot (splitExtensions data l) (fun _ => True) := by
  intro l
  induction l with
  | nil => exact NTot_pure _ trivial
  | cons kv rest ih =>
    obtain ⟨k, v⟩ := kv
    simp only [splitExtensions]
    split
    · exact NTot_bind (NTot_objSetMember _ _ _) (fun _ _ => ih)
    · exact NTot_bind ih (fun u _ => NTot_pure _ trivial)

/-- A fold of member writes is total and map-preserving. -/
theorem NTot_objSetFold (t : Val) : ∀ (fs : List (String × Val)) (u : Unit),
    NTot (fs.foldlM (fun _ kv => objSetMember t kv.1 kv.2) u) (fun _ => True) := by
  intro fs
  induction fs with
  | nil => intro u; exact NTot_pure _ trivial
  | cons kv rest ih =>
    intro u
    rw [List.foldlM_cons]
    exact NTot_bind (NTot_objSetMember _ _ _) (fun x _ => ih x)

/-- `Object.assign` onto the result container is total and map-preserving. -/
theorem NTot_objAssign (t src : Val) : NTot (objAssign t src) (fun _ => True) := by
  intro s
  cases src with
  | prim p => exact ⟨.ok (), s, rfl, rfl, fun _ _ => trivial⟩
  | dref i => exact ⟨.ok (), s, rfl, rfl, fun _ _ => trivial⟩
  | rref i =>
    cases hget : s.resHeap.get? i with
    | none =>
      refine ⟨.ok (), s, ?_, rfl, fun _ _ => trivial⟩
      simp only [objAssign, hget]
    | some node =>
      cases node with
      | arrN es =>
        refine ⟨.ok (), s, ?_, rfl, fun _ _ => trivial⟩
        simp only [objAssign, hget]
      | objN fs =>
        obtain ⟨r, s', he, hm, _⟩ := NTot_objSetFold t fs () s
        refine ⟨r, s', ?_, hm, fun _ _ => trivial⟩
        simp only [objAssign, hget]
        exact he

/-- A successful association-list lookup exposes a member. -/
theorem alGet_mem {α : Type} {l : List (String × α)} {k : String} {v : α}
    (h : alGet l k = some v) : (k, v) ∈ l := by
  unfold alGet at h
  cases hf : l.find? (fun p => p.1 = k) with
  | none => rw [hf] at h; cases h
  | some p =>
    rw [hf] at h
    have hp := List.find?_some hf
    have hm := List.mem_of_find?_eq_some hf
    simp only [decide_eq_true_eq] at hp
    simp only [Option.some.injEq] at h
    have : p = (k, v) := by
      cases p with
      | mk a b => simp only at hp h; rw [hp, h]
    rw [← this]; exact hm

/-- A component looked up in a good table is good. -/
theorem GoodTable_alGet {t : List (String × Validator)} {name : String} {v : Validator}
    (hg : GoodTable t) (h : alGet t name = some v) : GoodV v :=
  hg (name, v) (alGet_mem h)

/-- The `items` member of a good validator is good. -/
theorem GoodV_itemsOf {v : Validator} (h : GoodV v) : GoodV v.itemsOf := by
  cases h with
  | vTrue => exact GoodV.vNull
  | vFalse => exact GoodV.vNull
  | vNull => exact GoodV.vNull
  | vFn f hf => exact GoodV.vNull
  | eref n cfg hcfg => exact GoodV.vNull
  | desc t e it ap ps al rq ig df er w hit hap hps hdf =>
    cases it with
    | none => exact GoodV.vNull
    | some i => exact hit i rfl

/-- The `additionalProperties` member of a good validator is good. -/
theorem GoodV_apOf {v ap : Validator} (h : GoodV v) (heq : v.apOf = some ap) : GoodV ap := by
  cases h with
  | vTrue => exact Option.noConfusion heq
  | vFalse => exact Option.noConfusion heq
  | vNull => exact Option.noConfusion heq
  | vFn f hf => exact Option.noConfusion heq
  | eref n cfg hcfg => exact Option.noConfusion heq
  | desc t e it ap2 ps al rq ig df er w hit hap hps hdf => exact hap ap heq

/-- Every declared property validator of a good validator is good. -/
theorem GoodV_propsOf {v : Validator} {k : String} {pv : Validator}
    (h : GoodV v) (hmem : (k, pv) ∈ v.propsOf) : GoodV pv := by
  cases h with
  | vTrue => simp [Validator.propsOf] at hmem
  | vFalse => simp [Validator.propsOf] at hmem
  | vNull => simp [Validator.propsOf] at hmem
  | vFn f hf => simp [Validator.propsOf] at hmem
  | eref n cfg hcfg => simp [Validator.propsOf] at hmem
  | desc t e it ap ps al rq ig df er w hit hap hps hdf =>
    cases ps with
    | none => simp [Validator.propsOf] at hmem
    | some l => exact hps l k pv rfl hmem

/-- The `default` member of a good validator synthesizes primitives. -/
theorem GoodV_defaultFld {v : Validator} {fld : FieldV Val}
    (h : GoodV v) (heq : v.defaultFld = some fld) : GoodDefaultFld fld := by
  cases h with
  | vTrue => exact Option.noConfusion heq
  | vFalse => exact Option.noConfusion heq
  | vNull => exact Option.noConfusion heq
  | vFn f hf => exact Option.noConfusion heq
  | eref n cfg hcfg => exact Option.noConfusion heq
  | desc t e it ap ps al rq ig df er w hit hap hps hdf => exact hdf fld heq

/-- The inline config of a good `EnforcerRef` is good. -/
theorem GoodV_erefConfig {n : String} {cfg : Option Validator} {v : Validator}
    (h : GoodV (.eref n cfg)) (heq : cfg = some v) : GoodV v := by
  cases h with
  | eref n2 cfg2 hcfg => exact hcfg v heq

/-- Replacing the validator of a good context by a good validator keeps
the context good. -/
theorem GoodCtx_withValidator {H : DefHeap} {c : Ctx} {v : Validator}
    (h : GoodCtx H c) (hv : GoodV v) : GoodCtx H { c with validator := v } := by
  obtain ⟨_, ht, hd, hdt, hr⟩ := h
  exact ⟨hv, ht, hd, hdt, hr⟩

/-- The classification of a raw-side value does not consult the result heap. -/
theorem getDefinitionType_noRes (H : DefHeap) (rh : List Node) {v : Val}
    (h : v.noRes = true) : getDefinitionType H rh v = getDefinitionType H [] v := by
  cases v with
  | prim p => cases p <;> rfl
  | dref i => rfl
  | rref i => simp [Val.noRes] at h

/-- A raw-side object value is truthy. -/
theorem jsTruthy_of_objectVal_noRes {v : Val} (h1 : v.noRes = true)
    (h2 : v.isObjectVal = true) : jsTruthy v = true := by
  cases v with
  | prim p => simp [Val.isObjectVal] at h2
  | dref i => rfl
  | rref i => simp [Val.noRes] at h1

/-- A member read through a good raw heap stays on the raw side. -/
theorem memberRead_noRes {H : DefHeap} {rh : List Node} {parent : Val} {k : Key} {v : Val}
    (hH : GoodHeap H) (hp : parent.noRes = true)
    (h : memberRead H rh parent k = .ok v) : v.noRes = true := by
  cases parent with
  | rref i => simp [Val.noRes] at hp
  | prim p =>
    cases p with
    | pnull => exact Except.noConfusion h
    | pundef => exact Except.noConfusion h
    | pbool b => cases h; rfl
    | pnum n => cases h; rfl
    | pstr str => cases h; rfl
  | dref i =>
    simp only [memberRead] at h
    cases hg : H.get? i with
    | none => rw [hg] at h; cases h; rfl
    | some node =>
      have hnode := hH node (List.get?_mem hg)
      cases node with
      | arrN es =>
        rw [hg] at h
        cases k with
        | kstr str => cases h; rfl
        | kidx j =>
          cases h
          cases hj : es.get? j with
          | none =>
            rw [List.get?_eq_getElem?] at hj
            simp [hj, Val.noRes]
          | some e =>
            simp only [hj, Option.getD]
            exact hnode e (List.get?_mem hj)
      | objN fs =>
        rw [hg] at h
        cases k with
        | kidx j => cases h; rfl
        | kstr str =>
          cases h
          cases hal : alGet fs str with
          | none => simp [hal, Val.noRes]
          | some e =>
            simp only [hal, Option.getD]
            exact hnode (str, e) (alGet_mem hal)

/-- A validator that owns a `default` member exposes its field. -/
theorem hasDefault_defaultFld {v : Validator} (h : v.hasDefault = true) :
    ∃ fld, v.defaultFld = some fld := by
  cases v with
  | vTrue => simp [Validator.hasDefault] at h
  | vFalse => simp [Validator.hasDefault] at h
  | vNull => simp [Validator.hasDefault] at h
  | vFn f => simp [Validator.hasDefault] at h
  | eref n cfg => simp [Validator.hasDefault] at h
  | desc t e it ap ps al rq ig df er w =>
    cases df with
    | some fld => exact ⟨fld, rfl⟩
    | none => simp [Validator.hasDefault] at h

/-- `childData` is total and map-preserving, and on success yields a good
child context. -/
theorem childDataF_spec {H : DefHeap} (parent : Ctx) (k : Key) (v : Validator)
    (hH : GoodHeap H) (hd : parent.definition.noRes = true)
    (ht : GoodTable parent.context) (hv : GoodV v) :
    NTot (childDataF H parent k v) (fun child => GoodCtx H child) := by
  intro s
  simp only [childDataF]
  cases hm : memberRead H s.resHeap parent.definition k with
  | error e => exact ⟨.error e, s, rfl, rfl, fun x hx => by cases hx⟩
  | ok defn =>
    have hdefn : defn.noRes = true := memberRead_noRes hH hd hm
    dsimp only
    cases hdt : getDefinitionType H s.resHeap defn with
    | tArray =>
      refine ⟨.ok (mkChild parent k v defn .tArray (.rref s.resHeap.length)), _, rfl, rfl,
        fun child hchild => ?_⟩
      cases hchild
      refine ⟨hv, ht, hdefn, ?_, fun _ => rfl⟩
      show DType.tArray = getDefinitionType H [] defn
      rw [← getDefinitionType_noRes H s.resHeap hdefn, hdt]
    | tObject =>
      refine ⟨.ok (mkChild parent k v defn .tObject (.rref s.resHeap.length)), _, rfl, rfl,
        fun child hchild => ?_⟩
      cases hchild
      refine ⟨hv, ht, hdefn, ?_, fun _ => rfl⟩
      show DType.tObject = getDefinitionType H [] defn
      rw [← getDefinitionType_noRes H s.resHeap hdefn, hdt]
    | tBoolean =>
      refine ⟨.ok (mkChild parent k v defn .tBoolean defn), s, rfl, rfl,
        fun child hchild => ?_⟩
      cases hchild
      refine ⟨hv, ht, hdefn, ?_, fun ho => jsTruthy_of_objectVal_noRes hdefn ho⟩
      show DType.tBoolean = getDefinitionType H [] defn
      rw [← getDefinitionType_noRes H s.resHeap hdefn, hdt]
    | tNumber =>
      refine ⟨.ok (mkChild parent k v defn .tNumber defn), s, rfl, rfl,
        fun child hchild => ?_⟩
      cases hchild
      refine ⟨hv, ht, hdefn, ?_, fun ho => jsTruthy_of_objectVal_noRes hdefn ho⟩
      show DType.tNumber = getDefinitionType H [] defn
      rw [← getDefinitionType_noRes H s.resHeap hdefn, hdt]
    | tString =>
      refine ⟨.ok (mkChild parent k v defn .tString defn), s, rfl, rfl,
        fun child hchild => ?_⟩
      cases hchild
      refine ⟨hv, ht, hdefn, ?_, fun ho => jsTruthy_of_objectVal_noRes hdefn ho⟩
      show DType.tString = getDefinitionType H [] defn
      rw [← getDefinitionType_noRes H s.resHeap hdefn, hdt]
    | tNull =>
      refine ⟨.ok (mkChild parent k v defn .tNull defn), s, rfl, rfl,
        fun child hchild => ?_⟩
      cases hchild
      refine ⟨hv, ht, hdefn, ?_, fun ho => jsTruthy_of_objectVal_noRes hdefn ho⟩
      show DType.tNull = getDefinitionType H [] defn
      rw [← getDefinitionType_noRes H s.resHeap hdefn, hdt]
    | tUndefined =>
      refine ⟨.ok (mkChild parent k v defn .tUndefined defn), s, rfl, rfl,
        fun child hchild => ?_⟩
      cases hchild
      refine ⟨hv, ht, hdefn, ?_, fun ho => jsTruthy_of_objectVal_noRes hdefn ho⟩
      show DType.tUndefined = getDefinitionType H [] defn
      rw [← getDefinitionType_noRes H s.resHeap hdefn, hdt]

/-- Installing a synthesized primitive default keeps the context good. -/
theorem applyDefault_spec {H : DefHeap} (data0 : Ctx) (nd : Val)
    (hc : GoodCtx H data0) (hp : nd.isPrimV = true) :
    NTot (applyDefault H data0 nd) (fun c => GoodCtx H c) := by
  cases nd with
  | dref i => simp [Val.isPrimV] at hp
  | rref i => simp [Val.isPrimV] at hp
  | prim p =>
    intro s
    refine ⟨.ok _, s, rfl, rfl, fun c hcx => ?_⟩
    cases hcx
    obtain ⟨hgv, hgt, hnd, hty, hres⟩ := hc
    exact ⟨hgv, hgt, rfl, by cases p <;> rfl, fun ho => by simp [Val.isObjectVal] at ho⟩

/-- Building the decorated property list is total and map-preserving, and
every decorated child context is good. -/
theorem decorateProps_spec {H : DefHeap} (data : Ctx) (hH : GoodHeap H)
    (hd : data.definition.noRes = true) (hgt : GoodTable data.context) :
    ∀ (ps : List (String × Validator)), (∀ k v, (k, v) ∈ ps → GoodV v) →
      ∀ (unknown : List String),
        NTot (decorateProps H data ps unknown)
          (fun r => ∀ p ∈ r.1, GoodCtx H (p : Ctx × Int).1) := by
  intro ps
  induction ps with
  | nil => intro _ unknown; exact NTot_pure _ (fun p hp => absurd hp (List.not_mem_nil _))
  | cons kv rest ih =>
    obtain ⟨k, pv⟩ := kv
    intro hgv unknown
    simp only [decorateProps]
    refine NTot_bind
      (childDataF_spec data (.kstr k) pv hH hd hgt (hgv k pv (List.mem_cons.mpr (Or.inl rfl))))
      (fun child hchild => ?_)
    refine NTot_bind
      (ih (fun k2 v2 h2 => hgv k2 v2 (List.mem_cons.mpr (Or.inr h2))) (unknown.erase k))
      (fun rec0 hrec => ?_)
    refine NTot_pure _ ?_
    intro p hp
    rcases List.mem_cons.mp hp with rfl | hp2
    · exact hchild
    · exact hrec p hp2

/-- `runChildValidator` is safe under a safe normalizer: it resolves the
validator and only recurses on good contexts. -/
theorem runChildValidatorF_ok {H : DefHeap} {b : Nat} {norm : Ctx → NM Val}
    (hn : NormOK H b norm) (data0 : Ctx) (hc : GoodCtx H data0) :
    NGoodP H b (runChildValidatorF norm H data0) (fun _ => True) := by
  obtain ⟨hgv, hgt, hnd, hty, hres⟩ := hc
  unfold runChildValidatorF
  refine NGoodP_bind
    (NTot_to_NGoodP H b (runFnValidator_good data0.validator (ctxView data0) hgv))
    (fun vO hg => ?_)
  dsimp only
  cases hval : vO.getD .vNull with
  | eref name config =>
    rw [hval] at hg
    dsimp only
    split
    · refine hn _ ⟨?_, hgt, hnd, hty, hres⟩
      cases config with
      | none => exact GoodV.vNull
      | some c => exact GoodV_erefConfig hg rfl
    · split
      · cases hget : alGet data0.context name with
        | some compV => exact hn _ ⟨GoodTable_alGet hgt hget, hgt, hnd, hty, hres⟩
        | none => exact NTot_to_NGoodP H b (NTot_throw _ _)
      · exact NGoodP_bind (NTot_to_NGoodP H b (NTot_pushExc _ _))
          (fun _ _ => NGoodP_pure H b _ trivial)
  | vTrue =>
    rw [hval] at hg
    dsimp only
    split
    · exact hn _ ⟨hg, hgt, hnd, hty, hres⟩
    · exact NGoodP_pure H b _ trivial
  | vFalse =>
    rw [hval] at hg
    dsimp only
    split
    · exact hn _ ⟨hg, hgt, hnd, hty, hres⟩
    · exact NGoodP_pure H b _ trivial
  | vNull =>
    rw [hval] at hg
    dsimp only
    split
    · exact hn _ ⟨hg, hgt, hnd, hty, hres⟩
    · exact NGoodP_pure H b _ trivial
  | vFn f =>
    rw [hval] at hg
    dsimp only
    split
    · exact hn _ ⟨hg, hgt, hnd, hty, hres⟩
    · exact NGoodP_pure H b _ trivial
  | desc t e it ap ps al rq ig df er w =>
    rw [hval] at hg
    dsimp only
    split
    · exact hn _ ⟨hg, hgt, hnd, hty, hres⟩
    · exact NGoodP_pure H b _ trivial

/-- The array element loop is safe under a safe normalizer. -/
theorem arrayLoop_ok {H : DefHeap} {b : Nat} {norm : Ctx → NM Val}
    (hn : NormOK H b norm) (hH : GoodHeap H) (data : Ctx) (items : Validator)
    (hc : GoodCtx H data) (hi : GoodV items) :
    ∀ (l : List Val) (i : Nat), NGoodP H b (arrayLoop norm H data items i l) (fun _ => True) := by
  obtain ⟨hgv, hgt, hnd, hty, hres⟩ := hc
  intro l
  induction l with
  | nil => intro i; exact NGoodP_pure H b _ trivial
  | cons e rest ih =>
    intro i
    simp only [arrayLoop]
    refine NGoodP_bind
      (NTot_to_NGoodP H b (childDataF_spec data (.kidx i) items hH hnd hgt hi))
      (fun child hchild => ?_)
    refine NGoodP_bind (runChildValidatorF_ok hn child hchild) (fun v _ => ?_)
    refine NGoodP_bind (NTot_to_NGoodP H b (NTot_arrPushMember _ _)) (fun _ _ => ?_)
    exact ih (i + 1)

/-- The `additionalProperties` loop is safe under a safe normalizer. -/
theorem addPropsLoop_ok {H : DefHeap} {b : Nat} {norm : Ctx → NM Val}
    (hn : NormOK H b norm) (hH : GoodHeap H) (data : Ctx) (ap : Validator)
    (hc : GoodCtx H data) (hap : GoodV ap) :
    ∀ (ks na : List String),
      NGoodP H b (addPropsLoop norm H data ap ks na) (fun _ => True) := by
  obtain ⟨hgv, hgt, hnd, hty, hres⟩ := hc
  intro ks
  induction ks with
  | nil => intro na; exact NGoodP_pure H b _ trivial
  | cons k rest ih =>
    intro na
    simp only [addPropsLoop]
    refine NGoodP_bind
      (NTot_to_NGoodP H b (childDataF_spec data (.kstr k) ap hH hnd hgt hap))
      (fun child hchild => ?_)
    have hkv : NGoodP H b ((match kvOf child.validator with
      | .ok x => pure x
      | .error e => nmThrow e : NM Validator)) (fun _ => True) := by
      cases kvOf child.validator with
      | ok x => exact NGoodP_pure H b _ trivial
      | error e => exact NTot_to_NGoodP H b (NTot_throw _ _)
    refine NGoodP_bind hkv (fun kv _ => ?_)
    refine NGoodP_bind (NTot_to_NGoodP H b (NTot_evalAllowed _ _)) (fun allowed _ => ?_)
    have hstep : NGoodP H b ((if child.definition ≠ .prim .pundef then
        if ¬ allowed then pure (na ++ [k], none)
        else do
          let run ← evalIgnoredGate kv (ctxView child)
          if run then do
            let v ← runChildValidatorF norm H child
            objSetMember data.result k v
            pure (na, some v)
          else pure (na, none)
      else pure (na, none) : NM (List String × Option Val))) (fun _ => True) := by
      split
      · split
        · exact NGoodP_pure H b _ trivial
        · refine NGoodP_bind (NTot_to_NGoodP H b (NTot_evalIgnoredGate _ _)) (fun run _ => ?_)
          split
          · refine NGoodP_bind (runChildValidatorF_ok hn child hchild) (fun v _ => ?_)
            refine NGoodP_bind (NTot_to_NGoodP H b (NTot_objSetMember _ _ _)) (fun _ _ => ?_)
            exact NGoodP_pure H b _ trivial
          · exact NGoodP_pure H b _ trivial
      · exact NGoodP_pure H b _ trivial
    refine NGoodP_bind hstep (fun step _ => ?_)
    have hmatch : NGoodP H b ((match step.2, kv.errorsOf with
      | some v, some f =>
        runErrorsCb f (ctxView { child with definition := v })
      | _, _ => pure () : NM Unit)) (fun _ => True) := by
      cases hs2 : step.2 with
      | none =>
        cases herr : kv.errorsOf with
        | none => exact NGoodP_pure H b _ trivial
        | some f => exact NGoodP_pure H b _ trivial
      | some v =>
        cases herr : kv.errorsOf with
        | none => exact NGoodP_pure H b _ trivial
        | some f => exact NTot_to_NGoodP H b (NTot_runErrorsCb _ _)
    exact NGoodP_bind hmatch (fun _ _ => ih step.1)

/-- The per-property loop of the structured branch is safe under a safe
normalizer, provided every decorated child context is good. -/
theorem propsLoop_ok {H : DefHeap} {b : Nat} {norm : Ctx → NM Val}
    (hn : NormOK H b norm) (hH : GoodHeap H) (parentResult : Val) :
    ∀ (l : List (Ctx × Int)), (∀ p ∈ l, GoodCtx H (p : Ctx × Int).1) →
      ∀ (na mr : List String),
        NGoodP H b (propsLoop norm H parentResult l na mr) (fun _ => True) := by
  intro l
  induction l with
  | nil => intro _ na mr; exact NGoodP_pure H b _ trivial
  | cons pr rest ih =>
    intro hgood na mr
    obtain ⟨data0, w⟩ := pr
    have hc0 : GoodCtx H data0 := hgood (data0, w) (List.mem_cons.mpr (Or.inl rfl))
    have hc0' := hc0
    obtain ⟨hgv0, hgt0, hnd0, hty0, hres0⟩ := hc0'
    have hrest : ∀ p ∈ rest, GoodCtx H (p : Ctx × Int).1 :=
      fun p hp => hgood p (List.mem_cons.mpr (Or.inr hp))
    simp only [propsLoop]
    have hkv : NGoodP H b ((match kvOf data0.validator with
      | .ok x => pure x
      | .error e => nmThrow e : NM Validator)) (fun _ => True) := by
      cases kvOf data0.validator with
      | ok x => exact NGoodP_pure H b _ trivial
      | error e => exact NTot_to_NGoodP H b (NTot_throw _ _)
    refine NGoodP_bind hkv (fun kv _ => ?_)
    refine NGoodP_bind (NTot_to_NGoodP H b (NTot_evalAllowed _ _)) (fun allowed _ => ?_)
    have hacc : ∀ (data : Ctx), GoodCtx H data →
        NGoodP H b ((if data.definition ≠ .prim .pundef then
            if ¬ allowed then pure (na ++ [keyString data.key], mr)
            else do
              let run ← evalIgnoredGate kv (ctxView data)
              if run then do
                let v ← runChildValidatorF norm H data
                objSetMember parentResult (keyString data.key) v
                pure (na, mr)
              else pure (na, mr)
          else
            if allowed then do
              let req ← evalRequired kv (ctxView data)
              if req then pure (na, mr ++ [keyString data.key]) else pure (na, mr)
            else pure (na, mr) : NM (List String × List String))) (fun _ => True) := by
      intro data hdata
      split
      · split
        · exact NGoodP_pure H b _ trivial
        · refine NGoodP_bind (NTot_to_NGoodP H b (NTot_evalIgnoredGate _ _)) (fun run _ => ?_)
          split
          · refine NGoodP_bind (runChildValidatorF_ok hn data hdata) (fun v _ => ?_)
            refine NGoodP_bind (NTot_to_NGoodP H b (NTot_objSetMember _ _ _)) (fun _ _ => ?_)
            exact NGoodP_pure H b _ trivial
          · exact NGoodP_pure H b _ trivial
      · split
        · refine NGoodP_bind (NTot_to_NGoodP H b (NTot_evalRequired _ _)) (fun req _ => ?_)
          split
          · exact NGoodP_pure H b _ trivial
          · exact NGoodP_pure H b _ trivial
        · exact NGoodP_pure H b _ trivial
    split
    · rename_i hcond
      obtain ⟨fld, hfld⟩ := hasDefault_defaultFld hcond.2.2
      rw [hfld]
      refine NGoodP_bind
        (NTot_to_NGoodP H b (evalField_defaultPrim ((some fld).getD (.lit (.prim .pundef)))
          (ctxView data0) (by rw [Option.getD_some]; exact GoodV_defaultFld hgv0 hfld)))
        (fun dO hdO => ?_)
      refine NGoodP_bind (NTot_to_NGoodP H b (applyDefault_spec data0 _ hc0 hdO))
        (fun y hy => ?_)
      refine NGoodP_bind (hacc y hy) (fun acc _ => ?_)
      exact ih hrest acc.1 acc.2
    · have hpure : NGoodP H b (pure data0 : NM Ctx) (fun c => GoodCtx H c) :=
        NGoodP_pure H b data0 hc0
      refine NGoodP_bind hpure (fun y hy => ?_)
      refine NGoodP_bind (hacc y hy) (fun acc _ => ?_)
      exact ih hrest acc.1 acc.2

/-- Stepping a bind through a successful head computation. -/
theorem bind_step {α β : Type} (m : NM α) (k : α → NM β) (s : St) {a : α} {s1 : St}
    (h : m s = some (.ok a, s1)) : (m >>= k) s = k a s1 := by
  simp [nmBind_def, NM.bind_apply, h]

/-- Stepping a bind through a thrown head computation. -/
theorem bind_step_err {α β : Type} (m : NM α) (k : α → NM β) (s : St) {e : String} {s1 : St}
    (h : m s = some (.error e, s1)) : (m >>= k) s = some (.error e, s1) := by
  simp [nmBind_def, NM.bind_apply, h]

/-- Totality bind with trivial postconditions. -/
theorem NTot_bind_t {α β : Type} {m : NM α} {k : α → NM β}
    (hm : NTot m (fun _ => True)) (hk : ∀ a, NTot (k a) (fun _ => True)) :
    NTot (m >>= k) (fun _ => True) :=
  NTot_bind hm (fun a _ => hk a)

/-- Goodness bind with trivial postconditions. -/
theorem NGoodP_bind_t {α β : Type} {H : DefHeap} {b : Nat} {m : NM α} {k : α → NM β}
    (hm : NGoodP H b m (fun _ => True)) (hk : ∀ a, NGoodP H b (k a) (fun _ => True)) :
    NGoodP H b (m >>= k) (fun _ => True) :=
  NGoodP_bind hm (fun a _ => hk a)

/-- The object branch is safe under a safe normalizer. -/
theorem objectBranch_ok {H : DefHeap} {b : Nat} {norm : Ctx → NM Val}
    (hn : NormOK H b norm) (hH : GoodHeap H) (data : Ctx) (validator : Validator)
    (hc : GoodCtx H data) (hgv : GoodV validator) :
    NGoodP H b (objectBranch norm H data validator) (fun _ => True) := by
  have hc' := hc
  obtain ⟨hgvd, hgt, hnd, hty, hres⟩ := hc'
  unfold objectBranch
  refine NGoodP_bind (NTot_to_NGoodP H b (NTot_readState
    (fun s => objFieldsOf H s.resHeap data.definition))) (fun fields _ => ?_)
  have hprops : ∀ (v : Validator), GoodV v →
      NGoodP H b ((do
        let unknown ← splitExtensions data fields
        let dec ← decorateProps H data v.propsOf unknown
        let sorted := sortProperties dec.1
        let acc ← propsLoop norm H data.result sorted [] []
        pure (acc.1 ++ dec.2, acc.2) : NM (List String × List String))) (fun _ => True) := by
    intro v hv
    refine NGoodP_bind (NTot_to_NGoodP H b (NTot_splitExtensions data fields))
      (fun unknown _ => ?_)
    refine NGoodP_bind (NTot_to_NGoodP H b (decorateProps_spec data hH hnd hgt v.propsOf
      (fun k pv hm => GoodV_propsOf hv hm) unknown)) (fun dec hdec => ?_)
    dsimp only
    refine NGoodP_bind (propsLoop_ok hn hH data.result (sortProperties dec.1)
      (fun p hp => hdec p ((sortProperties_perm dec.1).mem_iff.mp hp)) [] [])
      (fun acc _ => ?_)
    exact NGoodP_pure H b _ trivial
  refine NGoodP_bind_t ?_ (fun namr => ?_)
  · cases validator with
    | vTrue =>
      refine NGoodP_bind (NTot_to_NGoodP H b (copyValF_tot H (H.length + 1) [] data.definition))
        (fun c _ => ?_)
      refine NGoodP_bind (NTot_to_NGoodP H b (NTot_objAssign _ _)) (fun _ _ => ?_)
      exact NGoodP_pure H b _ trivial
    | vFalse => exact NGoodP_pure H b _ trivial
    | vNull =>
      dsimp only [Validator.apOf]
      exact hprops _ hgv
    | vFn f =>
      dsimp only [Validator.apOf]
      exact hprops _ hgv
    | eref n cfg =>
      dsimp only [Validator.apOf]
      exact hprops _ hgv
    | desc t e it ap ps al rq ig df er w =>
      dsimp only [Validator.apOf]
      cases ap with
      | none => exact hprops _ hgv
      | some apv =>
        dsimp only
        split
        · refine NGoodP_bind (addPropsLoop_ok hn hH data apv hc (GoodV_apOf hgv rfl)
            (fields.map (fun p => p.1)) []) (fun na _ => ?_)
          exact NGoodP_pure H b _ trivial
        · exact hprops _ hgv
  · refine NGoodP_bind_t ?_ (fun _ => ?_)
    · split
      · exact NTot_to_NGoodP H b (NTot_pushExc _ _)
      · exact NGoodP_pure H b _ trivial
    · split
      · exact NTot_to_NGoodP H b (NTot_pushExc _ _)
      · exact NGoodP_pure H b _ trivial

/-- The dispatch tail is total and map-preserving when the definition is
not array- or object-classified (no recursion happens). -/
theorem normalizeDispatch_tot (norm : Ctx → NM Val) (H : DefHeap) (ctx : Ctx)
    (validator : Validator) (hA : ctx.definitionType ≠ .tArray)
    (hO : ctx.definitionType ≠ .tObject) :
    NTot (normalizeDispatch norm H ctx validator) (fun _ => True) := by
  unfold normalizeDispatch
  refine NTot_bind_t (NTot_enumStep _ _) (fun _ => ?_)
  refine NTot_bind_t ?_ (fun dataResult => ?_)
  · cases hdty : ctx.definitionType with
    | tArray => exact absurd hdty hA
    | tObject => exact absurd hdty hO
    | tBoolean => exact NTot_pure _ trivial
    | tNumber => exact NTot_pure _ trivial
    | tString => exact NTot_pure _ trivial
    | tNull => exact NTot_bind_t (NTot_pushExc _ _) (fun _ => NTot_pure _ trivial)
    | tUndefined => exact NTot_bind_t (NTot_pushExc _ _) (fun _ => NTot_pure _ trivial)
  · refine NTot_bind_t ?_ (fun _ => NTot_pure _ trivial)
    cases herr : validator.errorsOf with
    | some f => exact NTot_runErrorsCb _ _
    | none => exact NTot_pure _ trivial

/-- The dispatch tail is safe at bound `b` under a safe normalizer. -/
theorem normalizeDispatch_good {H : DefHeap} {b : Nat} {norm : Ctx → NM Val}
    (hn : NormOK H b norm) (hH : GoodHeap H) (ctx : Ctx) (validator : Validator)
    (hc : GoodCtx H ctx) (hgv : GoodV validator) :
    NGoodP H b (normalizeDispatch norm H ctx validator) (fun _ => True) := by
  unfold normalizeDispatch
  refine NGoodP_bind_t (NTot_to_NGoodP H b (NTot_enumStep _ _)) (fun _ => ?_)
  refine NGoodP_bind_t ?_ (fun dataResult => ?_)
  · cases hdty : ctx.definitionType with
    | tArray =>
      refine NGoodP_bind (NTot_to_NGoodP H b (NTot_readState
        (fun s => arrElemsOf H s.resHeap ctx.definition))) (fun es _ => ?_)
      refine NGoodP_bind (arrayLoop_ok hn hH ctx validator.itemsOf hc (GoodV_itemsOf hgv) es 0)
        (fun _ _ => ?_)
      exact NGoodP_pure H b _ trivial
    | tObject =>
      refine NGoodP_bind (objectBranch_ok hn hH ctx validator hc hgv) (fun _ _ => ?_)
      exact NGoodP_pure H b _ trivial
    | tBoolean => exact NGoodP_pure H b _ trivial
    | tNumber => exact NGoodP_pure H b _ trivial
    | tString => exact NGoodP_pure H b _ trivial
    | tNull =>
      exact NGoodP_bind_t (NTot_to_NGoodP H b (NTot_pushExc _ _))
        (fun _ => NGoodP_pure H b _ trivial)
    | tUndefined =>
      exact NGoodP_bind_t (NTot_to_NGoodP H b (NTot_pushExc _ _))
        (fun _ => NGoodP_pure H b _ trivial)
  · refine NGoodP_bind_t ?_ (fun _ => NGoodP_pure H b _ trivial)
    cases herr : validator.errorsOf with
    | some f => exact NTot_to_NGoodP H b (NTot_runErrorsCb _ _)
    | none => exact NGoodP_pure H b _ trivial

/-- The post-lookup part of the body is safe: a fresh object definition is
cached first, strictly shrinking the uncached count before any recursion;
non-object definitions never recurse. -/
theorem normalizeAfterGuard_ok {H : DefHeap} {b : Nat} {norm : Ctx → NM Val}
    (hn : NormOK H b norm) (hH : GoodHeap H) (ctx : Ctx) (validator : Validator)
    (hc : GoodCtx H ctx) (hgv : GoodV validator) :
    ∀ s, StWF s → uncachedCount H s.map < b + 1 →
      (ctx.definition.isObjectVal = true → valMapLookup s.map ctx.definition = none) →
      ∃ r s', normalizeAfterGuard norm H ctx validator s = some (r, s')
        ∧ StWF s' ∧ subKeys s.map s'.map := by
  intro s hs hb hfresh
  have hc' := hc
  obtain ⟨hgvd, hgt, hnd, hty, hres⟩ := hc'
  unfold normalizeAfterGuard
  cases hobj : ctx.definition.isObjectVal with
  | false =>
    have hstep : (if false = true then mapSetOp ctx.definition ctx.result
        else pure () : NM Unit) s = some (.ok (), s) := rfl
    rw [bind_step _ _ s hstep]
    have hprim : ∃ p, ctx.definition = .prim p := by
      cases hdef : ctx.definition with
      | prim p => exact ⟨p, rfl⟩
      | dref i => rw [hdef] at hobj; simp [Val.isObjectVal] at hobj
      | rref i => rw [hdef] at hobj; simp [Val.isObjectVal] at hobj
    obtain ⟨p, hdefp⟩ := hprim
    rw [hdefp] at hty
    have hA : ctx.definitionType ≠ .tArray := by
      rw [hty]; cases p <;> exact fun h => DType.noConfusion h
    have hO : ctx.definitionType ≠ .tObject := by
      rw [hty]; cases p <;> exact fun h => DType.noConfusion h
    obtain ⟨r, s', he, hm, _⟩ := normalizeDispatch_tot norm H ctx validator hA hO s
    refine ⟨r, s', he, ?_, ?_⟩
    · intro q hq; rw [hm] at hq; exact hs q hq
    · rw [hm]; exact subKeys_refl _
  | true =>
    have hstep : (if true = true then mapSetOp ctx.definition ctx.result
        else pure () : NM Unit) s
        = some (.ok (), { s with map := valMapSet s.map ctx.definition ctx.result }) := rfl
    rw [bind_step _ _ s hstep]
    have hs1 : StWF { s with map := valMapSet s.map ctx.definition ctx.result } :=
      fun q hq => StWF_set hs (hres hobj) q hq
    have hsub1 : subKeys s.map (valMapSet s.map ctx.definition ctx.result) :=
      subKeys_set _ _ _
    cases hdef : ctx.definition with
    | prim p => rw [hdef] at hobj; simp [Val.isObjectVal] at hobj
    | rref j => rw [hdef] at hnd; simp [Val.noRes] at hnd
    | dref i =>
      rw [hdef] at hs1 hsub1
      cases hg : H.get? i with
      | none =>
        rw [List.get?_eq_getElem?] at hg
        have hA : ctx.definitionType ≠ .tArray := by
          rw [hty, hdef]
          simp [getDefinitionType, hg]
        have hO : ctx.definitionType ≠ .tObject := by
          rw [hty, hdef]
          simp [getDefinitionType, hg]
        obtain ⟨r, s', he, hm, _⟩ := normalizeDispatch_tot norm H ctx validator hA hO
          { s with map := valMapSet s.map (Val.dref i) ctx.result }
        refine ⟨r, s', he, ?_, ?_⟩
        · intro q hq; rw [hm] at hq; exact hs1 q hq
        · rw [hm]; exact hsub1
      | some node =>
        have hi : i < H.length := by
          by_contra hlt
          rw [List.get?_eq_none.mpr (Nat.le_of_not_lt hlt)] at hg
          cases hg
        have hfr : valMapLookup s.map (Val.dref i) = none := by
          rw [← hdef]
          exact hfresh hobj
        have hb1 : uncachedCount H (valMapSet s.map (Val.dref i) ctx.result) < b := by
          have hdec := @uncached_strict H s.map i ctx.result hi hfr
          omega
        obtain ⟨r, s', he, hw, hsub, _⟩ := normalizeDispatch_good hn hH ctx validator hc hgv
          { s with map := valMapSet s.map (Val.dref i) ctx.result } hs1 hb1
        exact ⟨r, s', he, hw, subKeys_trans hsub1 hsub⟩

/-- The body of `normalize` is safe: a truthy cache hit returns at once;
otherwise the dispatch runs on a definition that was fresh in the map. -/
theorem normalizeBody_ok {H : DefHeap} {b : Nat} {norm : Ctx → NM Val}
    (hn : NormOK H b norm) (hH : GoodHeap H) (ctx : Ctx) (hc : GoodCtx H ctx) :
    ∀ s, StWF s → uncachedCount H s.map < b + 1 →
      ∃ r s', normalizeBody norm H ctx s = some (r, s') ∧ StWF s' ∧ subKeys s.map s'.map := by
  intro s hs hb
  have hc' := hc
  obtain ⟨hgvd, hgt, hnd, hty, hres⟩ := hc'
  unfold normalizeBody
  obtain ⟨r1, s1, he1, hm1, hp1⟩ := runFnValidator_good ctx.validator (ctxView ctx) hgvd s
  cases r1 with
  | error e =>
    refine ⟨.error e, s1, bind_step_err _ _ s he1, ?_, ?_⟩
    · intro q hq; rw [hm1] at hq; exact hs q hq
    · rw [hm1]; exact subKeys_refl _
  | ok vO =>
    have hgv : GoodV (vO.getD .vNull) := hp1 vO rfl
    rw [bind_step _ _ s he1]
    have hs1 : StWF s1 := fun q hq => hs q (hm1 ▸ hq)
    obtain ⟨r2, s2, he2, hm2, _⟩ := NTot_validateTypeF ctx s1
    cases r2 with
    | error e =>
      refine ⟨.error e, s2, ?_, ?_, ?_⟩
      · rw [bind_step_err _ _ s1 he2]
      · intro q hq; rw [hm2] at hq; exact hs1 q hq
      · rw [hm2, hm1]; exact subKeys_refl _
    | ok tOk =>
      rw [bind_step _ _ s1 he2]
      have hs2 : StWF s2 := fun q hq => hs1 q (hm2 ▸ hq)
      have hb2 : uncachedCount H s2.map < b + 1 := by rw [hm2, hm1]; exact hb
      have hsub02 : subKeys s.map s2.map := by rw [hm2, hm1]; exact subKeys_refl _
      cases tOk with
      | false =>
        rw [if_pos rfl]
        exact ⟨.ok (.prim .pundef), s2, rfl, hs2, hsub02⟩
      | true =>
        rw [if_neg (by simp)]
        cases hobj : ctx.definition.isObjectVal with
        | false =>
          have hhit : (if false = true then mapGetOp ctx.definition
              else pure none : NM (Option Val)) s2 = some (.ok none, s2) := rfl
          rw [bind_step _ _ s2 hhit]
          obtain ⟨r3, s3, he3, hw3, hsub3⟩ := normalizeAfterGuard_ok hn hH ctx _ hc hgv s2 hs2 hb2
            (fun hob => absurd (hobj.symm.trans hob) Bool.false_ne_true)
          exact ⟨r3, s3, he3, hw3, subKeys_trans hsub02 hsub3⟩
        | true =>
          have hhit : (if true = true then mapGetOp ctx.definition
              else pure none : NM (Option Val)) s2
              = some (.ok (valMapLookup s2.map ctx.definition), s2) := rfl
          rw [bind_step _ _ s2 hhit]
          cases hlook : valMapLookup s2.map ctx.definition with
          | some existing =>
            have htr : jsTruthy existing = true :=
              hs2 (ctx.definition, existing) (valMapLookup_mem hlook)
            dsimp only
            rw [if_pos htr]
            exact ⟨.ok existing, s2, rfl, hs2, hsub02⟩
          | none =>
            obtain ⟨r3, s3, he3, hw3, hsub3⟩ := normalizeAfterGuard_ok hn hH ctx _ hc hgv s2 hs2 hb2
              (fun _ => hlook)
            exact ⟨r3, s3, he3, hw3, subKeys_trans hsub02 hsub3⟩

/-- The normalizer is safe at any fuel exceeding the uncached-node count:
it always answers (never exhausts fuel), preserves map well-formedness
and only grows the key set. -/
theorem normalizeF_ok (H : DefHeap) (hH : GoodHeap H) :
    ∀ (fuel : Nat) (ctx : Ctx) (s : St), GoodCtx H ctx → StWF s →
      uncachedCount H s.map < fuel →
      ∃ v s', normalizeF H fuel ctx s = some (.ok v, s') ∧ StWF s' ∧ subKeys s.map s'.map := by
  intro fuel
  induction fuel with
  | zero => intro ctx s _ _ hb; exact absurd hb (Nat.not_lt_zero _)
  | succ f ih =>
    intro ctx s hc hs hb
    have hnorm : NormOK H f (normalizeF H f) := by
      intro c hcx st hst hbt
      obtain ⟨v, s', he, hw, hsub⟩ := ih c st hcx hst hbt
      exact ⟨.ok v, s', he, hw, hsub, fun _ _ => trivial⟩
    obtain ⟨r, s', he, hw, hsub⟩ := normalizeBody_ok hnorm hH ctx hc s hs hb
    cases r with
    | ok v =>
      refine ⟨v, s', ?_, hw, hsub⟩
      show nmCatch (normalizeBody (normalizeF H f) H ctx) _ s = _
      unfold nmCatch
      rw [he]
    | error e =>
      refine ⟨ctx.result, { s' with exc := s'.exc ++ [(ctx.path, unexpectedMsg e)] }, ?_, hw, hsub⟩
      show nmCatch (normalizeBody (normalizeF H f) H ctx) _ s = _
      unfold nmCatch
      rw [he]
      rfl

/-- The cyclic raw heap is good: its only node holds a raw reference. -/
theorem goodHeap_cycHeap : GoodHeap cycHeap := by
  intro n hn
  simp only [cycHeap, List.mem_singleton] at hn
  subst hn
  intro p hp
  simp only [List.mem_singleton] at hp
  subst hp
  rfl

/-- The Schema-like validator is good. -/
theorem goodV_schemaLike : GoodV schemaLikeValidator := by
  unfold schemaLikeValidator
  refine GoodV.desc _ _ _ _ _ _ _ _ _ _ _ ?_ ?_ ?_ ?_
  · intro v h; cases h
  · intro v h; cases h
  · intro l k v hl hm
    cases hl
    simp only [List.mem_singleton] at hm
    cases hm
    exact GoodV.eref _ _ (fun v h => by cases h)
  · intro fld h; cases h

/-- The empty capability set is good. -/
theorem goodV_emptyDesc : GoodV emptyDesc :=
  GoodV.desc none none none none none none none none none none none
    (fun v h => Option.noConfusion h) (fun v h => Option.noConfusion h)
    (fun l k v hl _ => Option.noConfusion hl) (fun fld h => Option.noConfusion h)

/-- The cyclic component table is good. -/
theorem goodTable_cycTable : GoodTable cycTable := by
  intro p hp
  simp only [cycTable, List.mem_singleton] at hp
  subst hp
  exact goodV_schemaLike

/-- The cyclic root context is good. -/
theorem goodCtx_cycCtxTop : GoodCtx cycHeap cycCtxTop :=
  ⟨goodV_schemaLike, goodTable_cycTable, rfl, rfl, fun _ => rfl⟩

/-- The cache-hit context is good. -/
theorem goodCtx_cacheHitCtx : GoodCtx cycHeap cacheHitCtx :=
  ⟨goodV_emptyDesc, goodTable_cycTable, rfl, rfl, fun _ => rfl⟩

/-- C1: for every well-formed input — including every cyclic definition —
`normalize` terminates: any fuel exceeding the count of definition-heap
objects not yet in the circular-reference map makes the walk answer (it
never exhausts its fuel, the only source of `none`), and whenever the
same definition object is encountered again during one walk (it already
has an entry in the map), the cached result of its first encounter is
returned at once with the state untouched, so a cycle collapses to the
shared result reference instead of recursing or duplicating. -/
theorem normalize_terminates_and_collapses_cycles
    (H : DefHeap) (ctx : Ctx) (s : St) (fuel : Nat)
    (hH : GoodHeap H) (hc : GoodCtx H ctx) (hs : StWF s)
    (hfuel : uncachedCount H s.map < fuel) :
    (∃ v s', normalizeF H fuel ctx s = some (.ok v, s'))
    ∧ (∀ existing, ctx.definition.isObjectVal = true →
        valMapLookup s.map ctx.definition = some existing →
        ctx.validator.isNull = false →
        (∀ f, ctx.validator ≠ .vFn f) →
        ctx.validator.typeF = none →
        normalizeF H fuel ctx s = some (.ok existing, s)) := by
  constructor
  · obtain ⟨v, s', he, _, _⟩ := normalizeF_ok H hH fuel ctx s hc hs hfuel
    exact ⟨v, s', he⟩
  · intro existing hobj hlook hnull hnf htype
    cases fuel with
    | zero => exact absurd hfuel (Nat.not_lt_zero _)
    | succ f =>
      show nmCatch (normalizeBody (normalizeF H f) H ctx) _ s = _
      have hrun : runFnValidator ctx.validator (ctxView ctx) s
          = some (.ok (some ctx.validator), s) := by
        cases hv : ctx.validator with
        | vFn f2 => exact absurd hv (hnf f2)
        | vTrue => rfl
        | vFalse => rfl
        | vNull => rfl
        | eref n cfg => rfl
        | desc t e it ap ps al rq ig df er w => rfl
      have htruthy : jsTruthy existing = true :=
        hs (ctx.definition, existing) (valMapLookup_mem hlook)
      have hbody : normalizeBody (normalizeF H f) H ctx s = some (.ok existing, s) := by
        unfold normalizeBody
        rw [bind_step _ _ s hrun]
        dsimp only [Option.getD]
        have hvt : validateTypeF ctx s = some (.ok true, s) := by
          unfold validateTypeF
          rw [if_neg (show ¬ ctx.validator.isNull = true by simp [hnull]), htype]
          rfl
        rw [bind_step _ _ s hvt]
        rw [if_neg (show ¬ (true = false) by simp)]
        have hhit : (if ctx.definition.isObjectVal = true then mapGetOp ctx.definition
            else pure none : NM (Option Val)) s
            = some (.ok (valMapLookup s.map ctx.definition), s) := by
          rw [hobj]
          rfl
        rw [bind_step _ _ s hhit, hlook]
        dsimp only
        rw [if_pos htruthy]
        rfl
      unfold nmCatch
      rw [hbody]

/-- C1 witness: the cyclic definition `A = \x7b self: A \x7d` under the
Schema-like component validator is a well-formed input; the walk over it
at fuel 2 (one above its uncached count) answers, and concretely
collapses the cycle — the materialized root object holds itself under
`self` and the map carries the single shared entry.  On a second
encounter of the same definition (cache-hit context and state) the
cached result reference is returned with the state untouched. -/
theorem normalize_terminates_and_collapses_cycles_witness :
    GoodHeap cycHeap ∧ GoodCtx cycHeap cycCtxTop ∧ StWF stInit
    ∧ uncachedCount cycHeap stInit.map < 2
    ∧ normalizeF cycHeap 2 cycCtxTop stInit ≠ none
    ∧ normalizeF cycHeap 2 cycCtxTop stInit
        = some (.ok (.rref 0),
            { resHeap := [.objN [("self", .rref 0)], .objN []],
              map := [(.dref 0, .rref 0)], exc := [] })
    ∧ normalizeF cycHeap 1 cacheHitCtx cacheHitSt = some (.ok (.rref 0), cacheHitSt) := by
  have hH : GoodHeap cycHeap := goodHeap_cycHeap
  have hc : GoodCtx cycHeap cycCtxTop := goodCtx_cycCtxTop
  have hs : StWF stInit := fun p hp => absurd hp (List.not_mem_nil p)
  have hb : uncachedCount cycHeap stInit.map < 2 := by decide
  have hsE : StWF cacheHitSt := by
    intro p hp
    simp only [cacheHitSt, List.mem_singleton] at hp
    subst hp
    rfl
  have hbE : uncachedCount cycHeap cacheHitSt.map < 1 := by decide
  refine ⟨hH, hc, hs, hb, ?_, rfl, ?_⟩
  · obtain ⟨v, s', he⟩ :=
      (normalize_terminates_and_collapses_cycles cycHeap cycCtxTop stInit 2 hH hc hs hb).1
    rw [he]
    exact fun h => Option.noConfusion h
  · exact (normalize_terminates_and_collapses_cycles cycHeap cacheHitCtx cacheHitSt 1
      hH goodCtx_cacheHitCtx hsE hbE).2 (.rref 0) rfl rfl rfl
      (fun f h => Validator.noConfusion h) rfl
